import Mathlib

/-!
Verification of the memory-graph knowledge-graph server core.

This file shallowly embeds the data model and the operations of the
repository (Rust sources under `src/`) into Lean and proves or refutes
the frozen claims about them.

Modelling conventions:
- Rust `String` is Lean `String`; `Vec<T>` is `List T` (push = append at
  the tail); `HashSet` membership checks are list membership (the code
  only uses sets for `contains` queries built from lists).
- `u64` timestamps are `Nat`; `i64` event timestamps are `Int`; the
  `as u64` cast of an `i64` is `i64ToU64` (two's-complement wraparound).
- `f32` confidence values are modelled as exact rationals `ℚ`; the decay
  table (0.95 / 0.90 / 0.85 / 0.70 / 0.60) and products of its entries
  are represented exactly.
- The in-place mutation of the shared graph is explicit state passing;
  an early `?` return during a mutation yields an `err` result that still
  carries the (possibly partially mutated) graph, exactly as the shared
  `RwLock<KnowledgeGraph>` retains partial changes in the Rust code.
-/

namespace MemoryGraph

/-- Entity record, from `src/types/entity.rs` (`struct Entity`). -/
structure Entity where
  name : String
  entityType : String
  observations : List String
  createdBy : String
  updatedBy : String
  createdAt : Nat
  updatedAt : Nat
deriving DecidableEq, Repr

/-- Relation record, from `src/types/relation.rs` (`struct Relation`).
The Rust fields `from` / `to` are spelled `rFrom` / `rTo` because `from`
is a Lean keyword. -/
structure Relation where
  rFrom : String
  rTo : String
  relationType : String
  createdBy : String
  createdAt : Nat
  validFrom : Option Nat
  validTo : Option Nat
deriving DecidableEq, Repr

/-- In-memory graph, from `src/types/graph.rs` (`struct KnowledgeGraph`). -/
structure KnowledgeGraph where
  entities : List Entity
  relations : List Relation
deriving DecidableEq, Repr

/-- Event source marker, from `src/types/event.rs` (`enum EventSource`). -/
inductive EventSource where
  | manual
  | mcpToolCall
  | apiRequest
  | systemGenerated
  | migration
deriving DecidableEq, Repr

/-- Typed event payload covering the seven event types of
`src/types/event.rs` (`EntityCreatedData` … `RelationDeletedData`).
The Rust code stores the payload as JSON and re-parses it in
`apply_event`; the embedding keeps it typed, which covers exactly the
well-formed payloads the system itself emits. -/
inductive EventData where
  | entityCreated (name entityType : String) (observations : List String)
  | entityUpdated (name : String) (entityType : Option String)
  | entityDeleted (name : String) (reason : Option String)
  | observationAdded (entity observation : String)
  | observationRemoved (entity observation : String)
  | relationCreated (rFrom rTo relationType : String)
      (validFrom validTo : Option Int)
  | relationDeleted (rFrom rTo relationType : String)
deriving DecidableEq, Repr

/-- Event record, from `src/types/event.rs` (`struct Event`). -/
structure Event where
  eventId : Nat
  timestamp : Int
  user : String
  agent : Option String
  source : EventSource
  data : EventData
deriving DecidableEq, Repr

/-- Rust `as u64` cast of an `i64` value (two's-complement wraparound). -/
def i64ToU64 (x : Int) : Nat := (x % (2 ^ 64)).toNat

/-- Replace the first element satisfying `p` by its image under `f`,
modelling `iter_mut().find(p)` followed by in-place mutation. -/
def updateFirst (p : α → Bool) (f : α → α) : List α → List α
  | [] => []
  | x :: xs => if p x then f x :: xs else x :: updateFirst p f xs

/-- Rust `as u64` of the event timestamp used by `apply_event` when
stamping `created_at` / `updated_at`. -/
def Event.ts (e : Event) : Nat := i64ToU64 e.timestamp

/-- State transition of a single event, from
`src/event_store/store.rs` (`EventStore::apply_event`). -/
def applyEvent (g : KnowledgeGraph) (e : Event) : KnowledgeGraph :=
  match e.data with
  | .entityCreated name entityType observations =>
      if g.entities.any (fun en => en.name == name) then g
      else
        { g with entities := g.entities ++
            [{ name, entityType, observations,
               createdBy := e.user, updatedBy := e.user,
               createdAt := e.ts, updatedAt := e.ts }] }
  | .entityUpdated name entityType =>
      { g with entities :=
          (updateFirst (fun en => en.name == name)
            (fun en =>
              { en with
                entityType := entityType.getD en.entityType,
                updatedBy := e.user, updatedAt := e.ts })
            g.entities) }
  | .entityDeleted name _ =>
      { g with
        entities := g.entities.filter (fun en => !(en.name == name)),
        relations := g.relations.filter
          (fun r => !(r.rFrom == name) && !(r.rTo == name)) }
  | .observationAdded entity observation =>
      { g with entities :=
          (updateFirst (fun en => en.name == entity)
            (fun en =>
              { en with
                observations :=
                  if en.observations.contains observation then en.observations
                  else en.observations ++ [observation],
                updatedBy := e.user, updatedAt := e.ts })
            g.entities) }
  | .observationRemoved entity observation =>
      { g with entities :=
          (updateFirst (fun en => en.name == entity)
            (fun en =>
              { en with
                observations :=
                  en.observations.filter (fun o => !(o == observation)),
                updatedBy := e.user, updatedAt := e.ts })
            g.entities) }
  | .relationCreated rFrom rTo relationType validFrom validTo =>
      if g.relations.any (fun r =>
          r.rFrom == rFrom && r.rTo == rTo && r.relationType == relationType)
      then g
      else
        { g with relations := g.relations ++
            [{ rFrom, rTo, relationType,
               createdBy := e.user, createdAt := e.ts,
               validFrom := validFrom.map i64ToU64,
               validTo := validTo.map i64ToU64 }] }
  | .relationDeleted rFrom rTo relationType =>
      { g with relations := g.relations.filter (fun r =>
          !(r.rFrom == rFrom && r.rTo == rTo &&
            r.relationType == relationType)) }

/-- Replay of the whole event log from the empty state, from
`src/event_store/store.rs` (`EventStore::replay_all`). -/
def replayAll (events : List Event) : KnowledgeGraph :=
  events.foldl applyEvent ⟨[], []⟩

/-- Replay of the events with `eventId > afterEventId` on top of a given
state, from `src/event_store/store.rs` (`EventStore::replay_after`,
which loads via `load_events_after`). -/
def replayAfter (g : KnowledgeGraph) (afterEventId : Nat)
    (events : List Event) : KnowledgeGraph :=
  (events.filter (fun e => afterEventId < e.eventId)).foldl applyEvent g

/-- Mutable counters of the `EventStore`
(`next_event_id`, `events_since_snapshot` in `src/event_store/store.rs`). -/
structure ESState where
  nextEventId : Nat
  eventsSinceSnapshot : Nat
deriving DecidableEq, Repr

/-- Outcome of one Knowledge Base mutation. In the Rust code the graph
lives in a shared `RwLock` that is mutated in place, so when `emit_event`
fails and the mutation returns early with `Err`, the partial changes made
so far remain in the graph; `err` therefore still carries the graph (and
the events appended before the failure). -/
inductive MutResult (α : Type) where
  | ok (g : KnowledgeGraph) (st : ESState) (events : List Event) (ret : α)
  | err (g : KnowledgeGraph) (st : ESState) (events : List Event)
deriving DecidableEq, Repr

/-- Graph held in the shared lock after the mutation finished (whether
it returned `Ok` or `Err`). -/
def MutResult.graph : MutResult α → KnowledgeGraph
  | .ok g _ _ _ => g
  | .err g _ _ => g

/-- Events appended to the log during the mutation. -/
def MutResult.events : MutResult α → List Event
  | .ok _ _ evs _ => evs
  | .err _ _ evs => evs

/-- Whether the mutation returned `Ok`. -/
def MutResult.isOk : MutResult α → Bool
  | .ok _ _ _ _ => true
  | .err _ _ _ => false

/-- The `KnowledgeBase::emit_event` → `EventStore::create_and_append_event`
path (`src/knowledge_base/mod.rs`, `src/event_store/store.rs`), with the
fallible fsync-append modelled by the oracle `appendOk` indexed by the
event id. On failure `next_event_id` has already been advanced (Rust
increments it before appending) but `events_since_snapshot` has not.
`Event::new` stamps the current time and source `McpToolCall`. -/
def emitEvent (user : String) (now : Nat) (appendOk : Nat → Bool)
    (st : ESState) (d : EventData) : Except ESState (Event × ESState) :=
  let id := st.nextEventId
  if appendOk id then
    .ok ({ eventId := id, timestamp := (now : Int), user := user,
           agent := none, source := .mcpToolCall, data := d },
         { nextEventId := id + 1,
           eventsSinceSnapshot := st.eventsSinceSnapshot + 1 })
  else
    .error { nextEventId := id + 1,
             eventsSinceSnapshot := st.eventsSinceSnapshot }

/-- Auto-fill of user identity used by the mutations: empty or "system"
means unset and is replaced by the KB's current user
(`src/knowledge_base/crud.rs`). -/
def fillUser (currentUser s : String) : String :=
  if s = "" ∨ s = "system" then currentUser else s

/-- Loop body of `create_entities` (`src/knowledge_base/crud.rs` lines
13-57). `existingNames` is the set of names captured once before the
loop; it is not extended as entities are pushed, exactly as in the Rust
code. -/
def createEntitiesLoop (es : Bool) (user : String) (now : Nat)
    (appendOk : Nat → Bool) (existingNames : List String) :
    List Entity → KnowledgeGraph → ESState → List Event → List Entity →
    MutResult (List Entity)
  | [], g, st, evs, created => .ok g st evs created
  | entity :: rest, g, st, evs, created =>
      if entity.name ∈ existingNames then
        createEntitiesLoop es user now appendOk existingNames rest g st evs
          created
      else
        let e1 : Entity :=
          { entity with
            createdBy := fillUser user entity.createdBy,
            updatedBy := fillUser user entity.updatedBy,
            createdAt := now, updatedAt := now }
        if es then
          match emitEvent user now appendOk st
              (.entityCreated e1.name e1.entityType e1.observations) with
          | .error st' => .err g st' evs
          | .ok (ev, st') =>
              createEntitiesLoop es user now appendOk existingNames rest
                { g with entities := g.entities ++ [e1] } st' (evs ++ [ev])
                (created ++ [e1])
        else
          createEntitiesLoop es user now appendOk existingNames rest
            { g with entities := g.entities ++ [e1] } st evs (created ++ [e1])

/-- The `create_entities` mutation (`src/knowledge_base/crud.rs`).
The legacy-mode `persist_to_file` rewrite and `maybe_create_snapshot`
only touch files, not the graph, and are omitted. -/
def create_entities (es : Bool) (user : String) (now : Nat)
    (appendOk : Nat → Bool) (st : ESState) (g : KnowledgeGraph)
    (inputs : List Entity) : MutResult (List Entity) :=
  createEntitiesLoop es user now appendOk (g.entities.map Entity.name)
    inputs g st [] []

/-- Key `"{from}|{to}|{relationType}"` used by `create_relations` and
`delete_relations` to identify a relation tuple. -/
def relKey (r : Relation) : String :=
  r.rFrom ++ "|" ++ r.rTo ++ "|" ++ r.relationType

/-- Loop body of `create_relations` (`src/knowledge_base/crud.rs` lines
60-114). `entityNames` and `existingKeys` are both captured once before
the loop. -/
def createRelationsLoop (es : Bool) (user : String) (now : Nat)
    (appendOk : Nat → Bool) (entityNames existingKeys : List String) :
    List Relation → KnowledgeGraph → ESState → List Event → List Relation →
    MutResult (List Relation)
  | [], g, st, evs, created => .ok g st evs created
  | relation :: rest, g, st, evs, created =>
      if relation.rFrom ∈ entityNames ∧ relation.rTo ∈ entityNames then
        if relKey relation ∈ existingKeys then
          createRelationsLoop es user now appendOk entityNames existingKeys
            rest g st evs created
        else
          let r1 : Relation :=
            { relation with
              createdBy := fillUser user relation.createdBy,
              createdAt := now }
          if es then
            match emitEvent user now appendOk st
                (.relationCreated r1.rFrom r1.rTo r1.relationType
                  (r1.validFrom.map Int.ofNat) (r1.validTo.map Int.ofNat))
              with
            | .error st' => .err g st' evs
            | .ok (ev, st') =>
                createRelationsLoop es user now appendOk entityNames
                  existingKeys rest
                  { g with relations := g.relations ++ [r1] } st'
                  (evs ++ [ev]) (created ++ [r1])
          else
            createRelationsLoop es user now appendOk entityNames existingKeys
              rest { g with relations := g.relations ++ [r1] } st evs
              (created ++ [r1])
      else
        createRelationsLoop es user now appendOk entityNames existingKeys
          rest g st evs created

/-- The `create_relations` mutation (`src/knowledge_base/crud.rs`). -/
def create_relations (es : Bool) (user : String) (now : Nat)
    (appendOk : Nat → Bool) (st : ESState) (g : KnowledgeGraph)
    (inputs : List Relation) : MutResult (List Relation) :=
  createRelationsLoop es user now appendOk (g.entities.map Entity.name)
    (g.relations.map relKey) inputs g st [] []

/-- Observation batch item, from `src/types/observation.rs`. -/
structure Observation where
  entityName : String
  contents : List String
deriving DecidableEq, Repr

/-- Observation deletion item, from `src/types/observation.rs`. -/
structure ObservationDeletion where
  entityName : String
  observations : List String
deriving DecidableEq, Repr

/-- Inner loop of `add_observations` over one entity's `contents`.
`existing` is the set of the entity's observations captured once before
the inner loop (so a duplicate inside `contents` is pushed twice, as in
the Rust code); `obsAcc` is the entity's observation list being extended
in place. On emit failure the partially extended list is kept. -/
def addObsInner (es : Bool) (user : String) (now : Nat)
    (appendOk : Nat → Bool) (entityName : String) (existing : List String) :
    List String → List String → List String → ESState → List Event →
    Except (List String × ESState × List Event)
      (List String × List String × ESState × List Event)
  | [], obsAcc, newContents, st, evs => .ok (obsAcc, newContents, st, evs)
  | content :: rest, obsAcc, newContents, st, evs =>
      if content ∈ existing then
        addObsInner es user now appendOk entityName existing rest obsAcc
          newContents st evs
      else if es then
        match emitEvent user now appendOk st
            (.observationAdded entityName content) with
        | .error st' => .error (obsAcc, st', evs)
        | .ok (ev, st') =>
            addObsInner es user now appendOk entityName existing rest
              (obsAcc ++ [content]) (newContents ++ [content]) st'
              (evs ++ [ev])
      else
        addObsInner es user now appendOk entityName existing rest
          (obsAcc ++ [content]) (newContents ++ [content]) st evs

/-- Loop body of `add_observations` (`src/knowledge_base/crud.rs` lines
117-168): find the entity, append the new contents, and stamp
`updated_at`/`updated_by` only if something was added. -/
def addObservationsLoop (es : Bool) (user : String) (now : Nat)
    (appendOk : Nat → Bool) :
    List Observation → KnowledgeGraph → ESState → List Event →
    List Observation → MutResult (List Observation)
  | [], g, st, evs, added => .ok g st evs added
  | obs :: rest, g, st, evs, added =>
      match g.entities.find? (fun en => en.name == obs.entityName) with
      | none => addObservationsLoop es user now appendOk rest g st evs added
      | some entity =>
          match addObsInner es user now appendOk obs.entityName
              entity.observations obs.contents entity.observations [] st evs
            with
          | .error (obsAcc, st', evs') =>
              .err
                { g with entities :=
                    (updateFirst (fun en => en.name == obs.entityName)
                      (fun en => { en with observations := obsAcc })
                      g.entities) }
                st' evs'
          | .ok (obsAcc, newContents, st', evs') =>
              if newContents.isEmpty then
                addObservationsLoop es user now appendOk rest
                  { g with entities :=
                      (updateFirst (fun en => en.name == obs.entityName)
                        (fun en => { en with observations := obsAcc })
                        g.entities) }
                  st' evs' added
              else
                addObservationsLoop es user now appendOk rest
                  { g with entities :=
                      (updateFirst (fun en => en.name == obs.entityName)
                        (fun en =>
                          { en with
                            observations := obsAcc,
                            updatedAt := now, updatedBy := user })
                        g.entities) }
                  st' evs'
                  (added ++ [{ entityName := obs.entityName,
                               contents := newContents }])

/-- The `add_observations` mutation (`src/knowledge_base/crud.rs`). -/
def add_observations (es : Bool) (user : String) (now : Nat)
    (appendOk : Nat → Bool) (st : ESState) (g : KnowledgeGraph)
    (inputs : List Observation) : MutResult (List Observation) :=
  addObservationsLoop es user now appendOk inputs g st [] []

/-- Event-emission loop of `delete_entities`: one `entity_deleted` event
per name actually present, emitted before any removal happens. -/
def deleteEntitiesEmitLoop (user : String) (now : Nat)
    (appendOk : Nat → Bool) (g : KnowledgeGraph) :
    List String → ESState → List Event →
    Except (ESState × List Event) (ESState × List Event)
  | [], st, evs => .ok (st, evs)
  | name :: rest, st, evs =>
      if g.entities.any (fun en => en.name == name) then
        match emitEvent user now appendOk st (.entityDeleted name none) with
        | .error st' => .error (st', evs)
        | .ok (ev, st') =>
            deleteEntitiesEmitLoop user now appendOk g rest st' (evs ++ [ev])
      else
        deleteEntitiesEmitLoop user now appendOk g rest st evs

/-- The `delete_entities` mutation (`src/knowledge_base/crud.rs` lines
171-203): emit events, then remove matching entities and every relation
with a deleted name in either endpoint. -/
def delete_entities (es : Bool) (user : String) (now : Nat)
    (appendOk : Nat → Bool) (st : ESState) (g : KnowledgeGraph)
    (names : List String) : MutResult Unit :=
  match (if es then deleteEntitiesEmitLoop user now appendOk g names st []
         else .ok (st, [])) with
  | .error (st', evs) => .err g st' evs
  | .ok (st', evs) =>
      .ok
        { entities := g.entities.filter (fun e => !(names.contains e.name)),
          relations := g.relations.filter (fun r =>
            !(names.contains r.rFrom) && !(names.contains r.rTo)) }
        st' evs ()

/-- Event-emission loop of `delete_observations` for one deletion item:
one `observation_removed` event per listed observation present on the
entity. -/
def deleteObsEmitLoop (user : String) (now : Nat) (appendOk : Nat → Bool)
    (entityName : String) (entityObs : List String) :
    List String → ESState → List Event →
    Except (ESState × List Event) (ESState × List Event)
  | [], st, evs => .ok (st, evs)
  | o :: rest, st, evs =>
      if o ∈ entityObs then
        match emitEvent user now appendOk st
            (.observationRemoved entityName o) with
        | .error st' => .error (st', evs)
        | .ok (ev, st') =>
            deleteObsEmitLoop user now appendOk entityName entityObs rest st'
              (evs ++ [ev])
      else
        deleteObsEmitLoop user now appendOk entityName entityObs rest st evs

/-- Loop body of `delete_observations` (`src/knowledge_base/crud.rs`
lines 206-247). -/
def deleteObservationsLoop (es : Bool) (user : String) (now : Nat)
    (appendOk : Nat → Bool) :
    List ObservationDeletion → KnowledgeGraph → ESState → List Event →
    MutResult Unit
  | [], g, st, evs => .ok g st evs ()
  | d :: rest, g, st, evs =>
      match g.entities.find? (fun en => en.name == d.entityName) with
      | none => deleteObservationsLoop es user now appendOk rest g st evs
      | some entity =>
          match (if es then
                   deleteObsEmitLoop user now appendOk d.entityName
                     entity.observations d.observations st evs
                 else .ok (st, evs)) with
          | .error (st', evs') => .err g st' evs'
          | .ok (st', evs') =>
              deleteObservationsLoop es user now appendOk rest
                { g with entities :=
                    (updateFirst (fun en => en.name == d.entityName)
                      (fun en =>
                        { en with
                          observations := (en.observations.filter
                            (fun o => !(d.observations.contains o))) })
                      g.entities) }
                st' evs'

/-- The `delete_observations` mutation (`src/knowledge_base/crud.rs`). -/
def delete_observations (es : Bool) (user : String) (now : Nat)
    (appendOk : Nat → Bool) (st : ESState) (g : KnowledgeGraph)
    (inputs : List ObservationDeletion) : MutResult Unit :=
  deleteObservationsLoop es user now appendOk inputs g st []

/-- Event-emission loop of `delete_relations`: one `relation_deleted`
event per listed relation that matches an existing tuple. -/
def deleteRelEmitLoop (user : String) (now : Nat) (appendOk : Nat → Bool)
    (g : KnowledgeGraph) :
    List Relation → ESState → List Event →
    Except (ESState × List Event) (ESState × List Event)
  | [], st, evs => .ok (st, evs)
  | r :: rest, st, evs =>
      if g.relations.any (fun x =>
          x.rFrom == r.rFrom && x.rTo == r.rTo &&
          x.relationType == r.relationType) then
        match emitEvent user now appendOk st
            (.relationDeleted r.rFrom r.rTo r.relationType) with
        | .error st' => .error (st', evs)
        | .ok (ev, st') =>
            deleteRelEmitLoop user now appendOk g rest st' (evs ++ [ev])
      else
        deleteRelEmitLoop user now appendOk g rest st evs

/-- The `delete_relations` mutation (`src/knowledge_base/crud.rs` lines
250-293): emit events, then retain only relations whose key is not among
the listed keys. -/
def delete_relations (es : Bool) (user : String) (now : Nat)
    (appendOk : Nat → Bool) (st : ESState) (g : KnowledgeGraph)
    (inputs : List Relation) : MutResult Unit :=
  match (if es then deleteRelEmitLoop user now appendOk g inputs st []
         else .ok (st, [])) with
  | .error (st', evs) => .err g st' evs
  | .ok (st', evs) =>
      .ok
        { g with relations := g.relations.filter (fun r =>
            !((inputs.map relKey).contains (relKey r))) }
        st' evs ()

/-- The six Knowledge Base mutations as one operation type, used to
quantify over "every Knowledge Base mutation". -/
inductive KBOp where
  | createEntities (inputs : List Entity)
  | createRelations (inputs : List Relation)
  | addObservations (inputs : List Observation)
  | deleteEntities (names : List String)
  | deleteObservations (inputs : List ObservationDeletion)
  | deleteRelations (inputs : List Relation)

/-- Graph left in the shared lock after running one mutation (dispatch
into the six mutation functions above, projecting the graph). -/
def runOp (es : Bool) (user : String) (now : Nat) (appendOk : Nat → Bool)
    (st : ESState) (g : KnowledgeGraph) : KBOp → KnowledgeGraph
  | .createEntities inputs =>
      (create_entities es user now appendOk st g inputs).graph
  | .createRelations inputs =>
      (create_relations es user now appendOk st g inputs).graph
  | .addObservations inputs =>
      (add_observations es user now appendOk st g inputs).graph
  | .deleteEntities names =>
      (delete_entities es user now appendOk st g names).graph
  | .deleteObservations inputs =>
      (delete_observations es user now appendOk st g inputs).graph
  | .deleteRelations inputs =>
      (delete_relations es user now appendOk st g inputs).graph

/-- Referential integrity (spec invariant I1): every relation's endpoints
name currently existing entities. -/
def RefIntegrity (g : KnowledgeGraph) : Prop :=
  ∀ r ∈ g.relations,
    (∃ e ∈ g.entities, e.name = r.rFrom) ∧ (∃ e ∈ g.entities, e.name = r.rTo)

/-- Synonym groups table, from `src/search/synonyms.rs`
(`SYNONYM_GROUPS`), in declaration order. -/
def SYNONYM_GROUPS : List (List String) :=
  [ ["coder", "programmer", "developer", "engineer", "dev",
     "software engineer", "software developer"],
    ["frontend", "front-end", "ui developer", "client-side"],
    ["backend", "back-end", "server-side", "api developer"],
    ["fullstack", "full-stack", "full stack"],
    ["devops", "sre", "infrastructure", "platform engineer"],
    ["bug", "issue", "defect", "error", "problem", "fault", "glitch"],
    ["fix", "patch", "hotfix", "bugfix", "repair", "resolve"],
    ["feature", "functionality", "capability", "enhancement"],
    ["task", "ticket", "work item", "story", "user story"],
    ["requirement", "spec", "specification", "req"],
    ["done", "completed", "finished", "resolved", "closed"],
    ["pending", "waiting", "blocked", "on hold"],
    ["in progress", "wip", "ongoing", "active", "working"],
    ["todo", "to do", "planned", "backlog"],
    ["critical", "urgent", "p0", "blocker", "showstopper"],
    ["high", "important", "p1"],
    ["medium", "normal", "p2"],
    ["low", "minor", "p3"],
    ["milestone", "release", "version", "sprint"],
    ["deadline", "due date", "target date"],
    ["project", "repo", "repository", "codebase"],
    ["doc", "docs", "documentation", "readme", "guide"],
    ["api", "interface", "endpoint"],
    ["test", "testing", "qa", "quality assurance"],
    ["unit test", "unittest"],
    ["integration test", "e2e", "end-to-end"],
    ["module", "component", "service", "package"],
    ["database", "db", "datastore", "storage"],
    ["cache", "caching", "redis", "memcached"] ]

/-- ASCII lowercasing of one character; the Rust code uses
`str::to_lowercase`, which agrees with this on the ASCII phrases and
queries the synonym table works with. -/
def asciiLowerChar (c : Char) : Char :=
  if 'A' ≤ c ∧ c ≤ 'Z' then Char.ofNat (c.toNat + 32) else c

/-- ASCII lowercasing of a string (model of `str::to_lowercase`). -/
def lowerStr (s : String) : String := String.mk (s.data.map asciiLowerChar)

/-- Whether the character list `big` starts with `small`. -/
def charsStart (big small : List Char) : Bool :=
  match big, small with
  | _, [] => true
  | [], _ :: _ => false
  | b :: bs, s :: ss => b == s && charsStart bs ss

/-- Whether the character list `big` has `small` as a contiguous
substring. -/
def charsHaveSub (big small : List Char) : Bool :=
  match big with
  | [] => small.isEmpty
  | _ :: bs => charsStart big small || charsHaveSub bs small

/-- Substring containment on strings (model of Rust `str::contains` with
a string pattern). -/
def strContains (big small : String) : Bool :=
  charsHaveSub big.data small.data

/-- Lookup in the phrase → group-index map of `src/search/synonyms.rs`
(`get_synonym_map`). The Rust map is built by inserting every phrase of
every group in order, a later group overwriting an earlier one for a
repeated phrase, so the lookup finds the last group containing the
phrase. -/
def synMapLookup (w : String) : Option Nat :=
  (SYNONYM_GROUPS.enum.reverse.find? (fun p => p.2.contains w)).map (·.1)

/-- Whether a group matches the fallback test of `get_synonyms`: some
phrase of the group is contained in the query or contains it. -/
def groupMatches (ql : String) (group : List String) : Bool :=
  group.any (fun w => strContains ql w || strContains w ql)

/-- Synonym expansion, from `src/search/synonyms.rs` (`get_synonyms`):
exact phrase lookup first; otherwise the first group (in declaration
order) whose phrase contains or is contained in the query; otherwise the
lowercased query alone. -/
def get_synonyms (query : String) : List String :=
  let ql := lowerStr query
  match synMapLookup ql with
  | some gi => SYNONYM_GROUPS.getD gi []
  | none =>
      match SYNONYM_GROUPS.find? (groupMatches ql) with
      | some g => g
      | none => [ql]

/-- Snapshot metadata, from `src/types/event.rs` (`struct SnapshotMeta`);
the constant `type: "snapshot_meta"` tag is left implicit. -/
structure SnapshotMeta where
  lastEventId : Nat
  createdAt : Int
  entityCount : Nat
  relationCount : Nat
  version : Nat
deriving DecidableEq, Repr

/-- Contents of a snapshot file: meta line, then entity lines, then
relation lines. -/
structure SnapshotFile where
  meta : SnapshotMeta
  entities : List Entity
  relations : List Relation
deriving DecidableEq, Repr

/-- One line of the legacy `memory.jsonl` file, already classified the
way `read_legacy_file` classifies it: parses as an entity, else parses
as a relation, else unparsable (logged and skipped). -/
inductive LegacyLine where
  | entityLine (e : Entity)
  | relationLine (r : Relation)
  | junk (s : String)
deriving DecidableEq, Repr

/-- The file-system state the migration tool touches, one field per
path: the legacy `memory.jsonl`, its `memory.jsonl.migrated` backup,
`events.jsonl`, and the two snapshot generations. `none` means the file
does not exist. -/
structure MigrationFS where
  legacy : Option (List LegacyLine)
  backup : Option (List LegacyLine)
  eventsFile : Option (List Event)
  snapshotLatest : Option SnapshotFile
  snapshotPrevious : Option SnapshotFile
deriving DecidableEq, Repr

/-- Partition of the legacy lines into entities and relations, from
`src/event_store/migration.rs` (`read_legacy_file`). -/
def readLegacyLines : List LegacyLine → List Entity × List Relation
  | [] => ([], [])
  | .entityLine e :: rest =>
      let p := readLegacyLines rest
      (e :: p.1, p.2)
  | .relationLine r :: rest =>
      let p := readLegacyLines rest
      (p.1, r :: p.2)
  | .junk _ :: rest => readLegacyLines rest

/-- Synthesized `entity_created` event of the migration
(`create_migration_events`): the user falls back to "migration" only
when the entity's `created_by` is empty. -/
def migrationEntityEvent (now : Nat) (id : Nat) (e : Entity) : Event :=
  { eventId := id, timestamp := (now : Int),
    user := if e.createdBy = "" then "migration" else e.createdBy,
    agent := some "MigrationTool", source := .migration,
    data := .entityCreated e.name e.entityType e.observations }

/-- Synthesized `relation_created` event of the migration. -/
def migrationRelationEvent (now : Nat) (id : Nat) (r : Relation) : Event :=
  { eventId := id, timestamp := (now : Int),
    user := if r.createdBy = "" then "migration" else r.createdBy,
    agent := some "MigrationTool", source := .migration,
    data := .relationCreated r.rFrom r.rTo r.relationType
      (r.validFrom.map Int.ofNat) (r.validTo.map Int.ofNat) }

/-- Events synthesized by `create_migration_events`
(`src/event_store/migration.rs`): entity events first, then relation
events, with ids assigned from 1. -/
def createMigrationEvents (now : Nat) (entities : List Entity)
    (relations : List Relation) : List Event :=
  (entities.enum.map (fun p => migrationEntityEvent now (p.1 + 1) p.2)) ++
  (relations.enum.map (fun p =>
    migrationRelationEvent now (entities.length + p.1 + 1) p.2))

/-- File-system effect of `SnapshotManager::create_snapshot_with_backup`
(`src/event_store/snapshot.rs`): write the new snapshot to a temp file,
move any existing `latest.jsonl` to `previous.jsonl` (removing an old
backup), and rename the temp file to `latest.jsonl`. -/
def createSnapshotWithBackupFS (fs : MigrationFS) (meta : SnapshotMeta)
    (entities : List Entity) (relations : List Relation) : MigrationFS :=
  { fs with
    snapshotPrevious :=
      if fs.snapshotLatest.isSome then fs.snapshotLatest
      else fs.snapshotPrevious,
    snapshotLatest := some ⟨meta, entities, relations⟩ }

/-- Result record of `migrate_from_legacy`
(`src/event_store/migration.rs`, `struct MigrationResult`). -/
structure MigrationResult where
  entitiesMigrated : Nat
  relationsMigrated : Nat
  eventsCreated : Nat
  snapshotCreated : Bool
deriving DecidableEq, Repr

/-- The migration `MigrationTool::migrate_from_legacy`
(`src/event_store/migration.rs` lines 55-100) at the file-system level:
read the legacy file, synthesize events, write `events.jsonl`, create
the initial snapshot, and copy the legacy file to
`memory.jsonl.migrated` when that backup does not already exist
(`fs::copy`, guarded by `!backup_path.exists()`). -/
def migrate_from_legacy (now : Nat) (fs : MigrationFS) :
    Except Unit (MigrationFS × MigrationResult) :=
  match fs.legacy with
  | none => .error ()
  | some lines =>
      let p := readLegacyLines lines
      let events := createMigrationEvents now p.1 p.2
      let lastEventId := ((events.getLast?).map Event.eventId).getD 0
      let fs1 := { fs with eventsFile := some events }
      let meta : SnapshotMeta :=
        ⟨lastEventId, (now : Int), p.1.length, p.2.length, 1⟩
      let fs2 := createSnapshotWithBackupFS fs1 meta p.1 p.2
      let fs3 :=
        if fs2.backup.isSome then fs2 else { fs2 with backup := some lines }
      .ok (fs3, ⟨p.1.length, p.2.length, events.length, true⟩)

/-- Exact rational multiplication written through `Rat.divInt` so that
concrete values evaluate by kernel reduction; it equals `(· * ·)` on ℚ
(`ratMul_eq_mul` below). -/
def ratMul (a b : ℚ) : ℚ :=
  Rat.divInt (a.num * b.num) ((a.den : Int) * (b.den : Int))

/-- Confidence decay table, from
`src/knowledge_base/inference/rules.rs` (`get_decay_factor`). The Rust
values are `f32` literals 0.95 / 0.90 / 0.85 / 0.70 / 0.60; they are
modelled as exact rationals. -/
def get_decay_factor (relationType : String) : ℚ :=
  if relationType = "depends_on" ∨ relationType = "contains" ∨
      relationType = "part_of" then mkRat 95 100
  else if relationType = "implements" ∨ relationType = "fixes" ∨
      relationType = "caused_by" then mkRat 90 100
  else if relationType = "affects" ∨ relationType = "assigned_to" ∨
      relationType = "blocked_by" then mkRat 85 100
  else if relationType = "relates_to" ∨ relationType = "supersedes" ∨
      relationType = "requires" then mkRat 70 100
  else mkRat 60 100

/-- Inferred relation with provenance, from `src/types/inference.rs`
(`struct InferredRelation`); the `f32` confidence is an exact rational. -/
structure InferredRelation where
  relation : Relation
  confidence : ℚ
  ruleName : String
  explanation : String
deriving DecidableEq, Repr

/-- Inference statistics, from `src/types/inference.rs`
(`struct InferStats`); the wall-clock `execution_time_ms` field is real
time and is not modelled. -/
structure InferStats where
  nodesVisited : Nat
  pathsFound : Nat
  maxDepthReached : Nat
deriving DecidableEq, Repr

/-- One BFS queue entry of `TransitiveDependencyRule::apply`:
`(current_node, path, relation_types_in_path, confidence)`. -/
structure QItem where
  node : String
  path : List String
  relTypes : List String
  conf : ℚ
deriving DecidableEq, Repr

/-- Human-readable path explanation, from
`TransitiveDependencyRule::generate_explanation`. -/
def generate_explanation (path : List String) (relTypes : List String) :
    String :=
  match path with
  | [] => ""
  | [_] => ""
  | p0 :: prest =>
      if relTypes.isEmpty then ""
      else
        (prest.enum.foldl
          (fun acc q =>
            acc ++ " -[" ++ ((relTypes.get? q.1).getD "?") ++ "]-> " ++ q.2)
          ("Inferred via path: " ++ p0))

/-- Inner edge loop of the BFS (the `for relation in outgoing` loop of
`TransitiveDependencyRule::apply`): visited check, confidence decay and
threshold check, emission of an inferred relation for paths with at
least two edges, marking visited, and queueing. Returns the updated
visited set, inferred list, `paths_found`, `max_depth_reached`, and the
items to push onto the queue. -/
def processEdges (minConfidence : ℚ) (target : String) (now : Nat)
    (item : QItem) :
    List Relation → List String → List InferredRelation → Nat → Nat →
    List QItem →
    List String × List InferredRelation × Nat × Nat × List QItem
  | [], visited, inferred, pf, mdr, adds => (visited, inferred, pf, mdr, adds)
  | r :: rs, visited, inferred, pf, mdr, adds =>
      if r.rTo ∈ visited then
        processEdges minConfidence target now item rs visited inferred pf mdr
          adds
      else
        let newConfidence := ratMul item.conf (get_decay_factor
          r.relationType)
        if newConfidence < minConfidence then
          processEdges minConfidence target now item rs visited inferred pf
            mdr adds
        else
          let newPath := item.path ++ [r.rTo]
          let newRelTypes := item.relTypes ++ [r.relationType]
          let inferred' :=
            if 3 ≤ newPath.length then
              inferred ++
                [{ relation :=
                    { rFrom := target, rTo := r.rTo,
                      relationType :=
                        "inferred_" ++ (newRelTypes.headD "relation"),
                      createdBy := "InferenceEngine", createdAt := now,
                      validFrom := none, validTo := none },
                   confidence := newConfidence,
                   ruleName := "TransitiveDependencyRule",
                   explanation := generate_explanation newPath newRelTypes }]
            else inferred
          let pf' := if 3 ≤ newPath.length then pf + 1 else pf
          processEdges minConfidence target now item rs (r.rTo :: visited)
            inferred' pf' (max mdr (newPath.length - 1))
            (adds ++ [⟨r.rTo, newPath, newRelTypes, newConfidence⟩])

/-- The BFS `while let Some(...) = queue.pop_front()` loop of
`TransitiveDependencyRule::apply`, with explicit fuel; `none` means the
fuel ran out before the queue emptied (`bfs_fuel_sufficient` below shows
this never happens for the fuel `apply` passes). -/
def bfsLoop (maxDepth : Nat) (minConfidence : ℚ) (target : String)
    (now : Nat) (relations : List Relation) :
    Nat → List String → List QItem → List InferredRelation → Nat → Nat →
    Nat → Option (List InferredRelation × InferStats)
  | _, _, [], inferred, nv, pf, mdr => some (inferred, ⟨nv, pf, mdr⟩)
  | 0, _, _ :: _, _, _, _, _ => none
  | fuel + 1, visited, item :: rest, inferred, nv, pf, mdr =>
      if maxDepth ≤ item.path.length - 1 then
        bfsLoop maxDepth minConfidence target now relations fuel visited rest
          inferred (nv + 1) pf (max mdr (item.path.length - 1))
      else
        let outgoing := relations.filter (fun r => r.rFrom == item.node)
        let step :=
          processEdges minConfidence target now item outgoing visited
            inferred pf mdr []
        bfsLoop maxDepth minConfidence target now relations fuel step.1
          (rest ++ step.2.2.2.2) step.2.1 (nv + 1) step.2.2.1 step.2.2.2.1

/-- Fuel that suffices for the BFS to drain its queue: one step per item
ever enqueued, which is at most one (the start item) plus one per
distinct relation endpoint. -/
def bfsFuel (relations : List Relation) : Nat :=
  1 + (relations.map Relation.rTo).dedup.length

/-- The full BFS run of `TransitiveDependencyRule::apply` on a graph
that contains the target. -/
def transitiveRun (maxDepth : Nat) (g : KnowledgeGraph) (target : String)
    (minConfidence : ℚ) (now : Nat) :
    Option (List InferredRelation × InferStats) :=
  bfsLoop maxDepth minConfidence target now g.relations
    (bfsFuel g.relations) [target] [⟨target, [target], [], 1⟩] [] 0 0 0

/-- `TransitiveDependencyRule::apply`
(`src/knowledge_base/inference/rules.rs` lines 75-172): empty result
when the target is not in the graph, otherwise the BFS result (the
`getD` fallback is dead code by `bfs_fuel_sufficient`). -/
def transitiveApply (maxDepth : Nat) (g : KnowledgeGraph) (target : String)
    (minConfidence : ℚ) (now : Nat) : List InferredRelation × InferStats :=
  if g.entities.any (fun e => e.name == target) then
    (transitiveRun maxDepth g target minConfidence now).getD ([], ⟨0, 0, 0⟩)
  else ([], ⟨0, 0, 0⟩)

/-- `InferenceEngine::infer` with the default rule set
(`src/knowledge_base/inference/mod.rs`): the engine concatenates the
results of its rules, and the default engine has exactly the
`TransitiveDependencyRule` with the given max depth. -/
def infer (maxDepth : Nat) (g : KnowledgeGraph) (target : String)
    (minConfidence : ℚ) (now : Nat) : List InferredRelation × InferStats :=
  transitiveApply maxDepth g target minConfidence now

/-- Edge predicate: the graph's relation list has an edge `a → b`
labelled `t`. -/
def EdgeOf (relations : List Relation) (a b t : String) : Prop :=
  ∃ r ∈ relations, r.rFrom = a ∧ r.rTo = b ∧ r.relationType = t

/-- The node list `p` with edge labels `ts` is a path in the relation
list: consecutive nodes are joined by edges with the listed types. -/
def PathOk (relations : List Relation) :
    List String → List String → Prop
  | [_], [] => True
  | a :: b :: p, t :: ts =>
      EdgeOf relations a b t ∧ PathOk relations (b :: p) ts
  | _, _ => False

/-- Product of the decay factors along a list of relation types, with
the BFS's initial confidence 1 (multiplication via `ratMul`, which
equals ℚ multiplication). -/
def decayProd (ts : List String) : ℚ :=
  ts.foldl (fun acc t => ratMul acc (get_decay_factor t)) 1

/-- Invariant of one BFS queue item: its path is a simple path of the
graph from the target to its node, wholly inside the visited set, at
most `maxDepth` edges long, and its confidence is the exact product of
the decay factors along the path. -/
def ItemInv (relations : List Relation) (target : String) (maxDepth : Nat)
    (visited : List String) (it : QItem) : Prop :=
  it.path.head? = some target ∧ it.path.getLast? = some it.node ∧
  it.path.Nodup ∧ (∀ x ∈ it.path, x ∈ visited) ∧
  PathOk relations it.path it.relTypes ∧
  it.conf = decayProd it.relTypes ∧
  it.path.length - 1 ≤ maxDepth

/-- Soundness property of one inferred relation: it is backed by a
simple path of 2..maxDepth edges from the target to its endpoint whose
decay product is exactly its confidence, which clears the threshold. -/
def InfOk (relations : List Relation) (target : String) (maxDepth : Nat)
    (minConfidence : ℚ) (inf : InferredRelation) : Prop :=
  ∃ p ts, PathOk relations p ts ∧ p.head? = some target ∧
    p.getLast? = some inf.relation.rTo ∧ p.Nodup ∧
    ts.length + 1 = p.length ∧ 2 ≤ ts.length ∧ ts.length ≤ maxDepth ∧
    inf.confidence = decayProd ts ∧ minConfidence ≤ inf.confidence ∧
    inf.relation.rFrom = target

/-! Helper lemmas. -/

theorem updateFirst_updateFirst (p : α → Bool) (f : α → α)
    (h : ∀ x, p x = true → p (f x) = true ∧ f (f x) = f x) (l : List α) :
    updateFirst p f (updateFirst p f l) = updateFirst p f l := by
  induction l with
  | nil => rfl
  | cons x xs ih =>
      cases hpx : p x with
      | true =>
          obtain ⟨h1, h2⟩ := h x hpx
          simp [updateFirst, hpx, h1, h2]
      | false => simp [updateFirst, hpx, ih]

theorem filter_idem (p : α → Bool) (l : List α) :
    (l.filter p).filter p = l.filter p := by
  induction l with
  | nil => rfl
  | cons x xs ih => cases hpx : p x <;> simp [List.filter_cons, hpx, ih]

/-! Claim C4: idempotent event application. -/

/-- C4. Applying any event of any of the seven event types twice in
succession with `apply_event` yields exactly the same state as applying
it once. -/
theorem apply_event_idempotent (g : KnowledgeGraph) (e : Event) :
    applyEvent (applyEvent g e) e = applyEvent g e := by
  obtain ⟨id, ts, user, agent, source, data⟩ := e
  cases data with
  | entityCreated name entityType observations =>
      by_cases h : (g.entities.any (fun en => en.name == name)) = true
      · simp [applyEvent, h]
      · simp [applyEvent, h, List.any_append]
  | entityUpdated name entityType =>
      simp only [applyEvent]
      rw [updateFirst_updateFirst]
      intro x hx
      refine ⟨hx, ?_⟩
      cases entityType <;> simp
  | entityDeleted name reason =>
      simp [applyEvent, filter_idem]
  | observationAdded entity observation =>
      simp only [applyEvent]
      rw [updateFirst_updateFirst]
      intro x hx
      refine ⟨hx, ?_⟩
      by_cases hc : observation ∈ x.observations
      · simp [hc]
      · simp [hc]
  | observationRemoved entity observation =>
      simp only [applyEvent]
      rw [updateFirst_updateFirst]
      intro x hx
      exact ⟨hx, by simp [filter_idem]⟩
  | relationCreated rFrom rTo relationType validFrom validTo =>
      by_cases h : (g.relations.any (fun r =>
          r.rFrom == rFrom && r.rTo == rTo &&
          r.relationType == relationType)) = true
      · simp [applyEvent, h]
      · simp [applyEvent, h, List.any_append]
  | relationDeleted rFrom rTo relationType =>
      simp [applyEvent, filter_idem]

/-! Claim C10: replay reconstructs provenance from the event. -/

theorem createEntitiesLoop_events_entityCreated
    (es : Bool) (user : String) (now : Nat) (appendOk : Nat → Bool)
    (existingNames : List String) :
    ∀ (inputs : List Entity) (g : KnowledgeGraph) (st : ESState)
      (evs : List Event) (created : List Entity),
      (∀ ev ∈ evs, ∃ n t o, ev.data = .entityCreated n t o) →
      ∀ ev ∈ (createEntitiesLoop es user now appendOk existingNames inputs g
          st evs created).events,
        ∃ n t o, ev.data = .entityCreated n t o := by
  intro inputs
  induction inputs with
  | nil => intro g st evs created hevs; simpa [createEntitiesLoop, MutResult.events] using hevs
  | cons entity rest ih =>
      intro g st evs created hevs
      simp only [createEntitiesLoop]
      by_cases hmem : entity.name ∈ existingNames
      · simp only [if_pos hmem]
        exact ih g st evs created hevs
      · simp only [if_neg hmem]
        cases es with
        | false => exact ih _ st evs _ hevs
        | true =>
            simp only [emitEvent]
            by_cases hap : appendOk st.nextEventId = true
            · simp only [if_pos hap]
              refine ih _ _ _ _ ?_
              intro ev hev
              rcases List.mem_append.mp hev with h | h
              · exact hevs ev h
              · rcases List.mem_singleton.mp h with rfl
                exact ⟨_, _, _, rfl⟩
            · simp only [if_neg hap, MutResult.events]
              exact fun ev hev => hevs ev hev

/-- C10. For every `entity_created` event applied to a state with no
entity of that name, `apply_event` adds an entity whose
`created_by = updated_by = event.user` and
`created_at = updated_at = event.timestamp` (as `u64`); and every event
appended by `create_entities` carries only name, entity type and
observations in its payload, so caller-supplied `createdBy`/`updatedBy`
on the created entity is not what replay restores. -/
theorem replay_provenance_from_event :
    (∀ (g : KnowledgeGraph) (e : Event) (n t : String) (obs : List String),
      e.data = .entityCreated n t obs →
      (∀ en ∈ g.entities, en.name ≠ n) →
      applyEvent g e = { g with entities := g.entities ++
        [{ name := n, entityType := t, observations := obs,
           createdBy := e.user, updatedBy := e.user,
           createdAt := e.ts, updatedAt := e.ts }] }) ∧
    (∀ (es : Bool) (user : String) (now : Nat) (appendOk : Nat → Bool)
      (st : ESState) (g : KnowledgeGraph) (inputs : List Entity),
      ∀ ev ∈ (create_entities es user now appendOk st g inputs).events,
        ∃ n t o, ev.data = .entityCreated n t o) := by
  constructor
  · intro g e n t obs hd hn
    obtain ⟨id, ts, user, agent, source, data⟩ := e
    simp only [Event.data] at hd
    subst hd
    have hany : (g.entities.any (fun en => en.name == n)) = false := by
      rw [List.any_eq_false]
      intro en hen
      simpa using hn en hen
    simp [applyEvent, hany, Event.ts]
  · intro es user now appendOk st g inputs
    exact createEntitiesLoop_events_entityCreated es user now appendOk _
      inputs g st [] [] (by simp)

/-- Witness for C10 at a concrete event and batch: applying an
`entity_created` event for "A" by user "bob" at time 5 to the empty
graph yields exactly the entity with provenance taken from the event. -/
theorem replay_provenance_from_event_witness :
    applyEvent ⟨[], []⟩
      ⟨1, 5, "bob", none, .mcpToolCall, .entityCreated "A" "T" []⟩ =
      ⟨[{ name := "A", entityType := "T", observations := [],
          createdBy := "bob", updatedBy := "bob",
          createdAt := 5, updatedAt := 5 }], []⟩ ∧
    (∀ ev ∈ (create_entities true "bob" 5 (fun _ => true) ⟨1, 0⟩ ⟨[], []⟩
        [{ name := "A", entityType := "T", observations := [],
           createdBy := "alice", updatedBy := "alice",
           createdAt := 0, updatedAt := 0 }]).events,
      ∃ n t o, ev.data = .entityCreated n t o) := by
  constructor
  · have h := replay_provenance_from_event.1 ⟨[], []⟩
      ⟨1, 5, "bob", none, .mcpToolCall, .entityCreated "A" "T" []⟩
      "A" "T" [] rfl (by simp)
    simpa [Event.ts, i64ToU64] using h
  · exact replay_provenance_from_event.2 true "bob" 5 (fun _ => true)
      ⟨1, 0⟩ ⟨[], []⟩ _

/-! Claim C2: referential integrity and cascade. -/

theorem createEntitiesLoop_shape (es : Bool) (user : String) (now : Nat)
    (appendOk : Nat → Bool) (existingNames : List String) :
    ∀ (inputs : List Entity) (g : KnowledgeGraph) (st : ESState)
      (evs : List Event) (created : List Entity),
      ((createEntitiesLoop es user now appendOk existingNames inputs g st evs
        created).graph.relations = g.relations) ∧
      (∀ n, (∃ e ∈ g.entities, e.name = n) →
        ∃ e ∈ (createEntitiesLoop es user now appendOk existingNames inputs g
          st evs created).graph.entities, e.name = n) := by
  intro inputs
  induction inputs with
  | nil =>
      intro g st evs created
      exact ⟨rfl, fun n hn => hn⟩
  | cons entity rest ih =>
      intro g st evs created
      simp only [createEntitiesLoop]
      by_cases hmem : entity.name ∈ existingNames
      · simp only [if_pos hmem]; exact ih g st evs created
      · simp only [if_neg hmem]
        cases es with
        | false =>
            obtain ⟨h1, h2⟩ := ih { g with entities := g.entities ++ [_] } st
              evs (created ++ [_])
            refine ⟨h1, fun n hn => h2 n ?_⟩
            obtain ⟨e, he, hne⟩ := hn
            exact ⟨e, List.mem_append_left _ he, hne⟩
        | true =>
            simp only [emitEvent]
            by_cases hap : appendOk st.nextEventId = true
            · simp only [if_pos hap]
              obtain ⟨h1, h2⟩ := ih { g with entities := g.entities ++ [_] }
                _ _ (created ++ [_])
              refine ⟨h1, fun n hn => h2 n ?_⟩
              obtain ⟨e, he, hne⟩ := hn
              exact ⟨e, List.mem_append_left _ he, hne⟩
            · simp only [if_neg hap]
              exact ⟨rfl, fun n hn => hn⟩

theorem createRelationsLoop_shape (es : Bool) (user : String) (now : Nat)
    (appendOk : Nat → Bool) (entityNames existingKeys : List String) :
    ∀ (inputs : List Relation) (g : KnowledgeGraph) (st : ESState)
      (evs : List Event) (created : List Relation),
      ((createRelationsLoop es user now appendOk entityNames existingKeys
        inputs g st evs created).graph.entities = g.entities) ∧
      (∀ r ∈ (createRelationsLoop es user now appendOk entityNames
          existingKeys inputs g st evs created).graph.relations,
        r ∈ g.relations ∨
          (r.rFrom ∈ entityNames ∧ r.rTo ∈ entityNames)) := by
  intro inputs
  induction inputs with
  | nil =>
      intro g st evs created
      exact ⟨rfl, fun r hr => Or.inl hr⟩
  | cons relation rest ih =>
      intro g st evs created
      simp only [createRelationsLoop]
      by_cases hends : relation.rFrom ∈ entityNames ∧ relation.rTo ∈ entityNames
      · simp only [if_pos hends]
        by_cases hkey : relKey relation ∈ existingKeys
        · simp only [if_pos hkey]; exact ih g st evs created
        · simp only [if_neg hkey]
          have push :
              ∀ (st' : ESState) (evs' : List Event) (created' : List Relation),
                (∀ r ∈ (createRelationsLoop es user now appendOk entityNames
                    existingKeys rest
                    { g with relations := g.relations ++
                      [{ relation with
                         createdBy := fillUser user relation.createdBy,
                         createdAt := now }] } st' evs'
                    created').graph.relations,
                  r ∈ g.relations ∨
                    (r.rFrom ∈ entityNames ∧ r.rTo ∈ entityNames)) := by
            intro st' evs' created' r hr
            rcases (ih _ st' evs' created').2 r hr with h | h
            · rcases List.mem_append.mp h with h' | h'
              · exact Or.inl h'
              · rcases List.mem_singleton.mp h' with rfl
                exact Or.inr hends
            · exact Or.inr h
          cases es with
          | false => exact ⟨(ih _ st evs _).1, push st evs _⟩
          | true =>
              simp only [emitEvent]
              by_cases hap : appendOk st.nextEventId = true
              · simp only [if_pos hap]
                exact ⟨(ih _ _ _ _).1, push _ _ _⟩
              · simp only [if_neg hap]
                exact ⟨rfl, fun r hr => Or.inl hr⟩
      · simp only [if_neg hends]; exact ih g st evs created

theorem map_updateFirst {m : α → β} (p : α → Bool) (f : α → α)
    (h : ∀ x, m (f x) = m x) (l : List α) :
    (updateFirst p f l).map m = l.map m := by
  induction l with
  | nil => rfl
  | cons x xs ih =>
      cases hpx : p x with
      | true => simp [updateFirst, hpx, h x]
      | false => simp [updateFirst, hpx, ih]

theorem addObservationsLoop_shape (es : Bool) (user : String) (now : Nat)
    (appendOk : Nat → Bool) :
    ∀ (inputs : List Observation) (g : KnowledgeGraph) (st : ESState)
      (evs : List Event) (added : List Observation),
      ((addObservationsLoop es user now appendOk inputs g st evs
        added).graph.relations = g.relations) ∧
      ((addObservationsLoop es user now appendOk inputs g st evs
        added).graph.entities.map Entity.name = g.entities.map Entity.name)
    := by
  intro inputs
  induction inputs with
  | nil => intro g st evs added; exact ⟨rfl, rfl⟩
  | cons obs rest ih =>
      intro g st evs added
      cases hfind : g.entities.find? (fun en => en.name == obs.entityName) with
      | none =>
          simp only [addObservationsLoop, hfind]
          exact ih g st evs added
      | some entity =>
          cases hinner : addObsInner es user now appendOk obs.entityName
              entity.observations obs.contents entity.observations [] st evs
            with
          | error res =>
              obtain ⟨obsAcc, st', evs'⟩ := res
              simp only [addObservationsLoop, hfind, hinner]
              exact ⟨rfl, map_updateFirst (fun en => en.name == obs.entityName)
                (fun en => { en with observations := obsAcc })
                (fun x => rfl) g.entities⟩
          | ok res =>
              obtain ⟨obsAcc, newContents, st', evs'⟩ := res
              simp only [addObservationsLoop, hfind, hinner]
              by_cases hnc : newContents.isEmpty = true
              · simp only [if_pos hnc]
                obtain ⟨h1, h2⟩ := ih _ st' evs' added
                exact ⟨h1, h2.trans
                  (map_updateFirst (fun en => en.name == obs.entityName)
                    (fun en => { en with observations := obsAcc })
                    (fun x => rfl) g.entities)⟩
              · simp only [if_neg hnc]
                obtain ⟨h1, h2⟩ := ih _ st' evs' _
                exact ⟨h1, h2.trans
                  (map_updateFirst (fun en => en.name == obs.entityName)
                    (fun en =>
                      { en with
                        observations := obsAcc,
                        updatedAt := now, updatedBy := user })
                    (fun x => rfl) g.entities)⟩

theorem deleteObservationsLoop_shape (es : Bool) (user : String) (now : Nat)
    (appendOk : Nat → Bool) :
    ∀ (inputs : List ObservationDeletion) (g : KnowledgeGraph)
      (st : ESState) (evs : List Event),
      ((deleteObservationsLoop es user now appendOk inputs g st
        evs).graph.relations = g.relations) ∧
      ((deleteObservationsLoop es user now appendOk inputs g st
        evs).graph.entities.map Entity.name = g.entities.map Entity.name)
    := by
  intro inputs
  induction inputs with
  | nil => intro g st evs; exact ⟨rfl, rfl⟩
  | cons d rest ih =>
      intro g st evs
      cases hfind : g.entities.find? (fun en => en.name == d.entityName) with
      | none =>
          simp only [deleteObservationsLoop, hfind]
          exact ih g st evs
      | some entity =>
          cases hemit : (if es then deleteObsEmitLoop user now appendOk
              d.entityName entity.observations d.observations st evs
            else .ok (st, evs)) with
          | error res =>
              obtain ⟨st', evs'⟩ := res
              simp only [deleteObservationsLoop, hfind, hemit]
              exact ⟨rfl, rfl⟩
          | ok res =>
              obtain ⟨st', evs'⟩ := res
              simp only [deleteObservationsLoop, hfind, hemit]
              obtain ⟨h1, h2⟩ := ih _ st' evs'
              exact ⟨h1, h2.trans
                (map_updateFirst (fun en => en.name == d.entityName)
                  (fun en =>
                    { en with observations := (en.observations.filter
                        (fun o => !(d.observations.contains o))) })
                  (fun x => rfl) g.entities)⟩

/-- C2. Referential integrity with cascade: every Knowledge Base
mutation leaves every relation's endpoints naming existing entities;
a committed `delete_entities([n])` leaves no relation touching `n`; and
`create_relations` never adds a relation with a nonexistent endpoint. -/
theorem referential_integrity (es : Bool) (user : String) (now : Nat)
    (appendOk : Nat → Bool) (st : ESState) (g : KnowledgeGraph)
    (hg : RefIntegrity g) :
    (∀ op, RefIntegrity (runOp es user now appendOk st g op)) ∧
    (∀ n, (delete_entities es user now appendOk st g [n]).isOk = true →
      ∀ r ∈ (delete_entities es user now appendOk st g [n]).graph.relations,
        r.rFrom ≠ n ∧ r.rTo ≠ n) ∧
    (∀ (inputs : List Relation) r,
      r ∈ (create_relations es user now appendOk st g inputs).graph.relations
      → r ∉ g.relations →
      (∃ e ∈ g.entities, e.name = r.rFrom) ∧
        (∃ e ∈ g.entities, e.name = r.rTo)) := by
  have hrel_of_names : ∀ (g' : KnowledgeGraph) (n : String),
      n ∈ g'.entities.map Entity.name → ∃ e ∈ g'.entities, e.name = n := by
    intro g' n hn
    obtain ⟨e, he, hne⟩ := List.mem_map.mp hn
    exact ⟨e, he, hne⟩
  have hnames_of_rel : ∀ (g' : KnowledgeGraph) (n : String),
      (∃ e ∈ g'.entities, e.name = n) → n ∈ g'.entities.map Entity.name := by
    intro g' n hn
    obtain ⟨e, he, hne⟩ := hn
    exact List.mem_map.mpr ⟨e, he, hne⟩
  have hcr : ∀ (inputs : List Relation) r,
      r ∈ (create_relations es user now appendOk st g inputs).graph.relations
      → r ∈ g.relations ∨
        (r.rFrom ∈ g.entities.map Entity.name ∧
         r.rTo ∈ g.entities.map Entity.name) := by
    intro inputs r hr
    exact (createRelationsLoop_shape es user now appendOk _ _ inputs g st
      [] []).2 r hr
  have hdel : ∀ (names : List String) r,
      r ∈ (delete_entities es user now appendOk st g names).graph.relations →
      (delete_entities es user now appendOk st g names).isOk = true →
      r ∈ g.relations ∧ names.contains r.rFrom = false ∧
        names.contains r.rTo = false := by
    intro names r hr hok
    cases hemit : (if es then deleteEntitiesEmitLoop user now appendOk g
        names st [] else .ok (st, [])) with
    | error res =>
        simp only [delete_entities, hemit, MutResult.isOk] at hok
        exact absurd hok (by decide)
    | ok res =>
        obtain ⟨st', evs⟩ := res
        simp only [delete_entities, hemit, MutResult.graph] at hr
        obtain ⟨hmem, hcond⟩ := List.mem_filter.mp hr
        rw [Bool.and_eq_true, Bool.not_eq_true', Bool.not_eq_true'] at hcond
        exact ⟨hmem, hcond.1, hcond.2⟩
  refine ⟨?_, ?_, ?_⟩
  · intro op
    cases op with
    | createEntities inputs =>
        intro r hr
        obtain ⟨h1, h2⟩ := createEntitiesLoop_shape es user now appendOk _
          inputs g st [] []
        rw [runOp, create_entities] at *
        rw [h1] at hr
        obtain ⟨hf, ht⟩ := hg r hr
        exact ⟨h2 _ hf, h2 _ ht⟩
    | createRelations inputs =>
        intro r hr
        obtain ⟨h1, h2⟩ := createRelationsLoop_shape es user now appendOk
          (g.entities.map Entity.name) (g.relations.map relKey) inputs g st
          [] []
        rw [runOp, create_relations] at hr
        rcases h2 r hr with hold | hnew
        · obtain ⟨hf, ht⟩ := hg r hold
          rw [runOp, create_relations, h1]
          exact ⟨hf, ht⟩
        · rw [runOp, create_relations, h1]
          exact ⟨hrel_of_names g _ hnew.1, hrel_of_names g _ hnew.2⟩
    | addObservations inputs =>
        intro r hr
        obtain ⟨h1, h2⟩ := addObservationsLoop_shape es user now appendOk
          inputs g st [] []
        rw [runOp, add_observations] at *
        rw [h1] at hr
        obtain ⟨hf, ht⟩ := hg r hr
        constructor
        · exact hrel_of_names _ _ (by rw [h2]; exact hnames_of_rel g _ hf)
        · exact hrel_of_names _ _ (by rw [h2]; exact hnames_of_rel g _ ht)
    | deleteEntities names =>
        intro r hr
        cases hemit : (if es then deleteEntitiesEmitLoop user now appendOk g
            names st [] else .ok (st, [])) with
        | error res =>
            rw [runOp, delete_entities] at hr ⊢
            rw [hemit] at hr ⊢
            exact hg r hr
        | ok res =>
            obtain ⟨st', evs⟩ := res
            rw [runOp, delete_entities] at hr ⊢
            rw [hemit] at hr ⊢
            simp only [MutResult.graph] at hr ⊢
            obtain ⟨hmem, hcond⟩ := List.mem_filter.mp hr
            rw [Bool.and_eq_true, Bool.not_eq_true', Bool.not_eq_true']
              at hcond
            obtain ⟨⟨ef, hef, hnef⟩, ⟨et, het, hnet⟩⟩ := hg r hmem
            constructor
            · refine ⟨ef, List.mem_filter.mpr ⟨hef, ?_⟩, hnef⟩
              rw [hnef]
              simpa using hcond.1
            · refine ⟨et, List.mem_filter.mpr ⟨het, ?_⟩, hnet⟩
              rw [hnet]
              simpa using hcond.2
    | deleteObservations inputs =>
        intro r hr
        obtain ⟨h1, h2⟩ := deleteObservationsLoop_shape es user now appendOk
          inputs g st []
        rw [runOp, delete_observations] at *
        rw [h1] at hr
        obtain ⟨hf, ht⟩ := hg r hr
        constructor
        · exact hrel_of_names _ _ (by rw [h2]; exact hnames_of_rel g _ hf)
        · exact hrel_of_names _ _ (by rw [h2]; exact hnames_of_rel g _ ht)
    | deleteRelations inputs =>
        intro r hr
        cases hemit : (if es then deleteRelEmitLoop user now appendOk g
            inputs st [] else .ok (st, [])) with
        | error res =>
            rw [runOp, delete_relations] at hr ⊢
            rw [hemit] at hr ⊢
            exact hg r hr
        | ok res =>
            obtain ⟨st', evs⟩ := res
            rw [runOp, delete_relations] at hr ⊢
            rw [hemit] at hr ⊢
            simp only [MutResult.graph] at hr ⊢
            obtain ⟨hmem, _⟩ := List.mem_filter.mp hr
            exact hg r hmem
  · intro n hok r hr
    obtain ⟨_, h1, h2⟩ := hdel [n] r hr hok
    constructor
    · intro heq; rw [heq] at h1; simp at h1
    · intro heq; rw [heq] at h2; simp at h2
  · intro inputs r hr hnotold
    rcases hcr inputs r hr with h | h
    · exact absurd h hnotold
    · exact ⟨hrel_of_names g _ h.1, hrel_of_names g _ h.2⟩

/-- Witness for C2 on a concrete two-entity graph with one relation. -/
theorem referential_integrity_witness :
    (∀ op, RefIntegrity (runOp true "u" 7 (fun _ => true) ⟨1, 0⟩
      ⟨[⟨"A", "T", [], "", "", 0, 0⟩, ⟨"B", "T", [], "", "", 0, 0⟩],
       [⟨"A", "B", "knows", "", 0, none, none⟩]⟩ op)) ∧
    (∀ n, (delete_entities true "u" 7 (fun _ => true) ⟨1, 0⟩
        ⟨[⟨"A", "T", [], "", "", 0, 0⟩, ⟨"B", "T", [], "", "", 0, 0⟩],
         [⟨"A", "B", "knows", "", 0, none, none⟩]⟩ [n]).isOk = true →
      ∀ r ∈ (delete_entities true "u" 7 (fun _ => true) ⟨1, 0⟩
        ⟨[⟨"A", "T", [], "", "", 0, 0⟩, ⟨"B", "T", [], "", "", 0, 0⟩],
         [⟨"A", "B", "knows", "", 0, none, none⟩]⟩ [n]).graph.relations,
        r.rFrom ≠ n ∧ r.rTo ≠ n) ∧
    (∀ (inputs : List Relation) r,
      r ∈ (create_relations true "u" 7 (fun _ => true) ⟨1, 0⟩
        ⟨[⟨"A", "T", [], "", "", 0, 0⟩, ⟨"B", "T", [], "", "", 0, 0⟩],
         [⟨"A", "B", "knows", "", 0, none, none⟩]⟩ inputs).graph.relations →
      r ∉ ([⟨"A", "B", "knows", "", 0, none, none⟩] : List Relation) →
      (∃ e ∈ ([⟨"A", "T", [], "", "", 0, 0⟩,
               ⟨"B", "T", [], "", "", 0, 0⟩] : List Entity),
          e.name = r.rFrom) ∧
        (∃ e ∈ ([⟨"A", "T", [], "", "", 0, 0⟩,
                 ⟨"B", "T", [], "", "", 0, 0⟩] : List Entity),
          e.name = r.rTo)) :=
  referential_integrity true "u" 7 (fun _ => true) ⟨1, 0⟩
    ⟨[⟨"A", "T", [], "", "", 0, 0⟩, ⟨"B", "T", [], "", "", 0, 0⟩],
     [⟨"A", "B", "knows", "", 0, none, none⟩]⟩
    (by unfold RefIntegrity; decide)

/-! Claim C1: key uniqueness under mutation. -/

/-- C1 (failing input). `create_entities` checks candidates only against
the names captured before the loop, so the batch `[A, A]` on the empty
graph creates two entities named "A" and returns both as added: the
key-uniqueness invariant I2 is violated by a batch containing two
candidates with the same name. -/
theorem create_entities_duplicate_batch :
    (create_entities false "u" 5 (fun _ => true) ⟨1, 0⟩ ⟨[], []⟩
      [⟨"A", "T", [], "", "", 0, 0⟩, ⟨"A", "T", [], "", "", 0, 0⟩] =
      .ok ⟨[⟨"A", "T", [], "u", "u", 5, 5⟩, ⟨"A", "T", [], "u", "u", 5, 5⟩],
           []⟩
        ⟨1, 0⟩ []
        [⟨"A", "T", [], "u", "u", 5, 5⟩, ⟨"A", "T", [], "u", "u", 5, 5⟩]) ∧
    ¬ ((create_entities false "u" 5 (fun _ => true) ⟨1, 0⟩ ⟨[], []⟩
      [⟨"A", "T", [], "", "", 0, 0⟩,
       ⟨"A", "T", [], "", "", 0, 0⟩]).graph.entities.map Entity.name).Nodup
    := by decide

/-! Claim C5: mutation atomicity on append failure. -/

/-- C5 (failing input). With event sourcing enabled and the second
append failing, `create_entities([A, B])` returns an error, but the
first batch item is still applied: the in-memory graph is NOT left in
the state it had before the mutation began. -/
theorem create_entities_append_failure_partial :
    ((create_entities true "u" 5 (fun id => id == 1) ⟨1, 0⟩ ⟨[], []⟩
      [⟨"A", "T", [], "", "", 0, 0⟩, ⟨"B", "T", [], "", "", 0, 0⟩]).isOk
      = false) ∧
    ((create_entities true "u" 5 (fun id => id == 1) ⟨1, 0⟩ ⟨[], []⟩
      [⟨"A", "T", [], "", "", 0, 0⟩,
       ⟨"B", "T", [], "", "", 0, 0⟩]).graph.entities.map Entity.name
      = ["A"]) ∧
    ((create_entities true "u" 5 (fun id => id == 1) ⟨1, 0⟩ ⟨[], []⟩
      [⟨"A", "T", [], "", "", 0, 0⟩,
       ⟨"B", "T", [], "", "", 0, 0⟩]).graph ≠ ⟨[], []⟩) := by decide

/-! Claim C3: replay equivalence against a snapshot of the live graph. -/

/-- C3 (counterexample). A single `create_entities` call by KB user
"bob" with caller-supplied provenance "alice" produces a live graph
whose entity has `createdBy = "alice"`, while replaying the emitted
event log from empty restores `createdBy = "bob"` (the event's user).
So replay-from-empty differs from a snapshot of the live graph at
`lastEventId` (with no events left to replay after it) in the
per-entity provenance fields. -/
theorem replay_equivalence_counterexample :
    ((replayAll (create_entities true "bob" 5 (fun _ => true) ⟨1, 0⟩
        ⟨[], []⟩ [⟨"A", "T", [], "alice", "alice", 0, 0⟩]).events).entities.map
        Entity.createdBy = ["bob"]) ∧
    (((create_entities true "bob" 5 (fun _ => true) ⟨1, 0⟩ ⟨[], []⟩
        [⟨"A", "T", [], "alice", "alice", 0, 0⟩]).graph.entities.map
        Entity.createdBy = ["alice"])) ∧
    (replayAll (create_entities true "bob" 5 (fun _ => true) ⟨1, 0⟩
        ⟨[], []⟩ [⟨"A", "T", [], "alice", "alice", 0, 0⟩]).events ≠
      replayAfter (create_entities true "bob" 5 (fun _ => true) ⟨1, 0⟩
        ⟨[], []⟩ [⟨"A", "T", [], "alice", "alice", 0, 0⟩]).graph 1
        (create_entities true "bob" 5 (fun _ => true) ⟨1, 0⟩ ⟨[], []⟩
          [⟨"A", "T", [], "alice", "alice", 0, 0⟩]).events) := by decide

theorem filter_le_append_filter_gt (S : Nat) (L : List Event)
    (h : L.Pairwise (fun a b => a.eventId < b.eventId)) :
    L.filter (fun e => e.eventId ≤ S) ++ L.filter (fun e => S < e.eventId)
      = L := by
  induction L with
  | nil => rfl
  | cons a L ih =>
      obtain ⟨ha, h'⟩ := List.pairwise_cons.mp h
      by_cases hle : a.eventId ≤ S
      · have h1 : (a :: L).filter (fun e => decide (e.eventId ≤ S)) =
            a :: L.filter (fun e => decide (e.eventId ≤ S)) := by
          simp [List.filter_cons, hle]
        have h2 : (a :: L).filter (fun e => decide (S < e.eventId)) =
            L.filter (fun e => decide (S < e.eventId)) := by
          simp [List.filter_cons, Nat.not_lt.mpr hle]
        rw [h1, h2, List.cons_append, ih h']
      · have hgt : S < a.eventId := Nat.not_le.mp hle
        have h1 : (a :: L).filter (fun e => decide (e.eventId ≤ S)) = [] := by
          rw [List.filter_eq_nil_iff]
          intro b hb
          rcases List.mem_cons.mp hb with rfl | hbL
          · simpa using hle
          · have := ha b hbL
            simp only [decide_eq_true_eq]
            omega
        have h2 : (a :: L).filter (fun e => decide (S < e.eventId)) =
            a :: L := by
          rw [List.filter_eq_self]
          intro b hb
          rcases List.mem_cons.mp hb with rfl | hbL
          · simpa using hgt
          · have := ha b hbL
            simp only [decide_eq_true_eq]
            omega
        rw [h1, h2, List.nil_append]

/-- C3 (amended). Replay equivalence holds when the snapshot state is
the state obtained by replaying the events with `eventId ≤ S` (rather
than a snapshot of the live graph, which can differ in per-entity
provenance when callers supplied `createdBy`/`updatedBy`): for an event
log with strictly increasing ids, replaying everything from empty
equals taking that state and applying, via `replay_after`, every event
with `eventId > S`. -/
theorem replay_equivalence_amended (L : List Event) (S : Nat)
    (hsorted : L.Pairwise (fun a b => a.eventId < b.eventId)) :
    replayAfter (replayAll (L.filter (fun e => e.eventId ≤ S))) S L
      = replayAll L := by
  unfold replayAfter replayAll
  rw [← List.foldl_append]
  rw [filter_le_append_filter_gt S L hsorted]

/-- Witness for C3's amended claim on a concrete two-event log split at
S = 1. -/
theorem replay_equivalence_amended_witness :
    replayAfter
      (replayAll (([⟨1, 5, "u", none, .mcpToolCall,
          .entityCreated "A" "T" []⟩,
        ⟨2, 6, "u", none, .mcpToolCall,
          .entityCreated "B" "T" []⟩] : List Event).filter
        (fun e => e.eventId ≤ 1))) 1
      [⟨1, 5, "u", none, .mcpToolCall, .entityCreated "A" "T" []⟩,
       ⟨2, 6, "u", none, .mcpToolCall, .entityCreated "B" "T" []⟩]
      = replayAll
        [⟨1, 5, "u", none, .mcpToolCall, .entityCreated "A" "T" []⟩,
         ⟨2, 6, "u", none, .mcpToolCall, .entityCreated "B" "T" []⟩] :=
  replay_equivalence_amended _ 1 (by decide)

/-! Claim C8: migration and the legacy file. -/

/-- C8 (counterexample). After a successful `migrate_from_legacy` run on
an existing legacy file, the original `memory.jsonl` path still holds
the legacy content: the file is copied (`fs::copy`), not renamed, so
"the original path no longer contains the live legacy file" is false. -/
theorem migration_keeps_legacy_counterexample :
    ((migrate_from_legacy 5
      ⟨some [.entityLine ⟨"A", "T", [], "", "", 0, 0⟩],
       none, none, none, none⟩).toOption.map (fun p => p.1.legacy)
      = some (some [.entityLine ⟨"A", "T", [], "", "", 0, 0⟩])) ∧
    ((migrate_from_legacy 5
      ⟨some [.entityLine ⟨"A", "T", [], "", "", 0, 0⟩],
       none, none, none, none⟩).toOption.map (fun p => p.1.legacy)
      ≠ some none) := by decide

/-- C8 (amended). For every successful `migrate_from_legacy` run on an
existing legacy file with no pre-existing backup, afterwards
`memory.jsonl.migrated` holds the legacy content — but by copying: the
original `memory.jsonl` still holds the legacy content as well. -/
theorem migration_copies_legacy_aside (now : Nat) (fs : MigrationFS)
    (lines : List LegacyLine) (hl : fs.legacy = some lines)
    (hb : fs.backup = none) :
    ∃ fs' res, migrate_from_legacy now fs = .ok (fs', res) ∧
      fs'.backup = some lines ∧ fs'.legacy = some lines := by
  obtain ⟨leg, bak, evf, snl, snp⟩ := fs
  simp only at hl hb
  subst hl; subst hb
  refine ⟨_, _, rfl, ?_, ?_⟩ <;>
    simp [migrate_from_legacy, createSnapshotWithBackupFS]

/-- Witness for C8's amended claim on a concrete one-line legacy file. -/
theorem migration_copies_legacy_aside_witness :
    ∃ fs' res,
      migrate_from_legacy 5
        ⟨some [.entityLine ⟨"A", "T", [], "", "", 0, 0⟩],
         none, none, none, none⟩ = .ok (fs', res) ∧
      fs'.backup = some [.entityLine ⟨"A", "T", [], "", "", 0, 0⟩] ∧
      fs'.legacy = some [.entityLine ⟨"A", "T", [], "", "", 0, 0⟩] :=
  migration_copies_legacy_aside 5
    ⟨some [.entityLine ⟨"A", "T", [], "", "", 0, 0⟩],
     none, none, none, none⟩
    [.entityLine ⟨"A", "T", [], "", "", 0, 0⟩] rfl rfl

/-! Claim C9: synonym expansion. -/

theorem find?_eq_some_split (p : α → Bool) :
    ∀ (l : List α) (g : α), l.find? p = some g →
      ∃ pre post, l = pre ++ g :: post ∧ (∀ x ∈ pre, p x = false) ∧
        p g = true := by
  intro l
  induction l with
  | nil => intro g h; simp [List.find?] at h
  | cons a l ih =>
      intro g h
      cases hpa : p a with
      | true =>
          rw [List.find?_cons_of_pos _ hpa] at h
          rcases Option.some_inj.mp h with rfl
          exact ⟨[], l, rfl, by simp, hpa⟩
      | false =>
          rw [List.find?_cons_of_neg _ (by simp [hpa])] at h
          obtain ⟨pre, post, hl, hpre, hg⟩ := ih g h
          refine ⟨a :: pre, post, by rw [hl, List.cons_append], ?_, hg⟩
          intro x hx
          rcases List.mem_cons.mp hx with rfl | hx'
          · exact hpa
          · exact hpre x hx'

/-- C9 (counterexample). The query "bug fix" is not a known phrase, it
substring-matches the fix/patch group (so that group is a matching
group whose phrases the union semantics would include), yet
`get_synonyms "bug fix"` does not contain "patch": the function does
not return the union of every matching group. -/
theorem get_synonyms_not_union :
    synMapLookup (lowerStr "bug fix") = none ∧
    (["fix", "patch", "hotfix", "bugfix", "repair", "resolve"] ∈
      SYNONYM_GROUPS) ∧
    groupMatches (lowerStr "bug fix")
      ["fix", "patch", "hotfix", "bugfix", "repair", "resolve"] = true ∧
    "patch" ∉ get_synonyms "bug fix" := by decide

/-- C9 (amended). For a query that is not a known phrase,
`get_synonyms` returns the phrases of the FIRST group (in declaration
order) containing a phrase that contains the query or is contained in
it, and `[lowercased query]` only when no group matches. -/
theorem get_synonyms_first_group (q : String)
    (h : synMapLookup (lowerStr q) = none) :
    (∃ pre g post, SYNONYM_GROUPS = pre ++ g :: post ∧
      (∀ g' ∈ pre, groupMatches (lowerStr q) g' = false) ∧
      groupMatches (lowerStr q) g = true ∧
      get_synonyms q = g) ∨
    ((∀ g ∈ SYNONYM_GROUPS, groupMatches (lowerStr q) g = false) ∧
      get_synonyms q = [lowerStr q]) := by
  cases hf : SYNONYM_GROUPS.find? (groupMatches (lowerStr q)) with
  | none =>
      refine Or.inr ⟨?_, ?_⟩
      · intro g hg
        have := List.find?_eq_none.mp hf g hg
        simpa using this
      · simp only [get_synonyms, h, hf]
  | some g =>
      obtain ⟨pre, post, hl, hpre, hg⟩ := find?_eq_some_split _ _ _ hf
      exact Or.inl ⟨pre, g, post, hl, hpre, hg,
        by simp only [get_synonyms, h, hf]⟩

/-- Witness for C9's amended claim at the concrete query "bug fix",
which matches the bug/issue group first. -/
theorem get_synonyms_first_group_witness :
    (∃ pre g post, SYNONYM_GROUPS = pre ++ g :: post ∧
      (∀ g' ∈ pre, groupMatches (lowerStr "bug fix") g' = false) ∧
      groupMatches (lowerStr "bug fix") g = true ∧
      get_synonyms "bug fix" = g) ∨
    ((∀ g ∈ SYNONYM_GROUPS, groupMatches (lowerStr "bug fix") g = false) ∧
      get_synonyms "bug fix" = [lowerStr "bug fix"]) :=
  get_synonyms_first_group "bug fix" (by decide)

/-! Claims C6 and C7: inference soundness and cycle safety.
Path bookkeeping lemmas first. -/

theorem ratMul_eq_mul (a b : ℚ) : ratMul a b = a * b := by
  rw [ratMul, ← Rat.divInt_mul_divInt a.num b.num
    (by exact_mod_cast a.den_nz) (by exact_mod_cast b.den_nz)]
  rw [Rat.num_divInt_den, Rat.num_divInt_den]

theorem decayProd_append (ts : List String) (t : String) :
    decayProd (ts ++ [t]) = ratMul (decayProd ts) (get_decay_factor t) := by
  simp [decayProd, List.foldl_append]

theorem pathOk_length (relations : List Relation) :
    ∀ (p ts : List String), PathOk relations p ts →
      ts.length + 1 = p.length := by
  intro p
  induction p with
  | nil => intro ts h; cases ts <;> simp [PathOk] at h
  | cons a p ih =>
      intro ts h
      cases p with
      | nil =>
          cases ts with
          | nil => rfl
          | cons t ts' => simp [PathOk] at h
      | cons b p' =>
          cases ts with
          | nil => simp [PathOk] at h
          | cons t ts' =>
              have h2 : PathOk relations (b :: p') ts' := by
                rw [PathOk] at h; exact h.2
              have := ih ts' h2
              simp only [List.length_cons] at this ⊢
              omega

theorem head?_append_of_some {l q : List α} {a : α}
    (h : l.head? = some a) : (l ++ q).head? = some a := by
  cases l with
  | nil => simp at h
  | cons x xs => simpa using h

theorem nodup_append_singleton {l : List α} {a : α} (h1 : l.Nodup)
    (h2 : a ∉ l) : (l ++ [a]).Nodup := by
  rw [List.nodup_append]
  refine ⟨h1, List.nodup_singleton a, ?_⟩
  intro x hx hxa
  rcases List.mem_singleton.mp hxa with rfl
  exact h2 hx

theorem pathOk_append_edge (relations : List Relation)
    (next t : String) :
    ∀ (p ts : List String) (a : String), PathOk relations p ts →
      p.getLast? = some a → EdgeOf relations a next t →
      PathOk relations (p ++ [next]) (ts ++ [t]) := by
  intro p
  induction p with
  | nil => intro ts a h; cases ts <;> simp [PathOk] at h
  | cons x p ih =>
      intro ts a h hl he
      cases p with
      | nil =>
          cases ts with
          | nil =>
              have hax : a = x := by simpa using hl.symm
              subst hax
              simp only [List.cons_append, List.nil_append]
              rw [PathOk]
              exact ⟨he, by rw [PathOk]; trivial⟩
          | cons t' ts' => simp [PathOk] at h
      | cons y p' =>
          cases ts with
          | nil => simp [PathOk] at h
          | cons t' ts' =>
              rw [PathOk] at h
              have hl' : (y :: p').getLast? = some a := by
                simpa [List.getLast?_cons_cons] using hl
              have := ih ts' a h.2 hl' he
              simp only [List.cons_append]
              rw [PathOk]
              constructor
              · exact h.1
              · simpa using this

theorem ItemInv_mono {relations : List Relation} {target : String}
    {maxDepth : Nat} {visited visited' : List String} {it : QItem}
    (hsub : ∀ x ∈ visited, x ∈ visited')
    (h : ItemInv relations target maxDepth visited it) :
    ItemInv relations target maxDepth visited' it := by
  obtain ⟨h1, h2, h3, h4, h5, h6, h7⟩ := h
  exact ⟨h1, h2, h3, fun x hx => hsub x (h4 x hx), h5, h6, h7⟩

theorem processEdges_inv (minC : ℚ) (target : String) (now : Nat)
    (rels : List Relation) (md : Nat) (item : QItem)
    (hhead : item.path.head? = some target)
    (hlast : item.path.getLast? = some item.node)
    (hnodup : item.path.Nodup)
    (hconf : item.conf = decayProd item.relTypes)
    (hpath : PathOk rels item.path item.relTypes)
    (hdepth : item.path.length ≤ md) :
    ∀ (rs : List Relation) (visited : List String)
      (inferred : List InferredRelation) (pf mdr : Nat) (adds : List QItem),
      (∀ r ∈ rs, r ∈ rels ∧ r.rFrom = item.node) →
      target ∈ visited →
      (∀ x ∈ item.path, x ∈ visited) →
      (∀ it ∈ adds, ItemInv rels target md visited it) →
      (∀ inf ∈ inferred, InfOk rels target md minC inf) →
      (∀ x ∈ visited, x ∈ (processEdges minC target now item rs visited
        inferred pf mdr adds).1) ∧
      (∀ it ∈ (processEdges minC target now item rs visited inferred pf mdr
          adds).2.2.2.2,
        ItemInv rels target md
          (processEdges minC target now item rs visited inferred pf mdr
            adds).1 it) ∧
      (∀ inf ∈ (processEdges minC target now item rs visited inferred pf mdr
          adds).2.1, InfOk rels target md minC inf) := by
  intro rs
  induction rs with
  | nil =>
      intro visited inferred pf mdr adds _ _ _ hadds hinf
      exact ⟨fun x hx => hx, hadds, hinf⟩
  | cons r rs' ih =>
      intro visited inferred pf mdr adds hrs hvt hvp hadds hinf
      obtain ⟨hrrels, hrfrom⟩ := hrs r (List.mem_cons_self r rs')
      have hrs' : ∀ x ∈ rs', x ∈ rels ∧ x.rFrom = item.node :=
        fun x hx => hrs x (List.mem_cons_of_mem r hx)
      simp only [processEdges]
      by_cases hv : r.rTo ∈ visited
      · simp only [if_pos hv]
        exact ih visited inferred pf mdr adds hrs' hvt hvp hadds hinf
      · simp only [if_neg hv]
        by_cases hc : ratMul item.conf (get_decay_factor r.relationType) < minC
        · simp only [if_pos hc]
          exact ih visited inferred pf mdr adds hrs' hvt hvp hadds hinf
        · simp only [if_neg hc]
          have hsub : ∀ x ∈ visited, x ∈ r.rTo :: visited :=
            fun x hx => List.mem_cons_of_mem _ hx
          have hnotpath : r.rTo ∉ item.path := fun hmem => hv (hvp _ hmem)
          have hedge : EdgeOf rels item.node r.rTo r.relationType :=
            ⟨r, hrrels, hrfrom, rfl, rfl⟩
          have hpath' : PathOk rels (item.path ++ [r.rTo])
              (item.relTypes ++ [r.relationType]) :=
            pathOk_append_edge rels r.rTo r.relationType item.path
              item.relTypes item.node hpath hlast hedge
          have hlen : item.relTypes.length + 1 = item.path.length :=
            pathOk_length rels item.path item.relTypes hpath
          have hit' : ItemInv rels target md (r.rTo :: visited)
              ⟨r.rTo, item.path ++ [r.rTo],
               item.relTypes ++ [r.relationType],
               ratMul item.conf (get_decay_factor r.relationType)⟩ := by
            refine ⟨head?_append_of_some hhead, List.getLast?_concat _,
              nodup_append_singleton hnodup hnotpath, ?_, hpath', ?_, ?_⟩
            · intro x hx
              rcases List.mem_append.mp hx with hx' | hx'
              · exact hsub x (hvp x hx')
              · rcases List.mem_singleton.mp hx' with rfl
                exact List.mem_cons_self _ _
            · rw [hconf, decayProd_append]
            · simp only [List.length_append, List.length_singleton]
              omega
          have hinf' : ∀ inf ∈ (if 3 ≤ (item.path ++ [r.rTo]).length then
              inferred ++
                [{ relation :=
                    { rFrom := target, rTo := r.rTo,
                      relationType := "inferred_" ++
                        ((item.relTypes ++ [r.relationType]).headD
                          "relation"),
                      createdBy := "InferenceEngine", createdAt := now,
                      validFrom := none, validTo := none },
                   confidence :=
                     ratMul item.conf (get_decay_factor r.relationType),
                   ruleName := "TransitiveDependencyRule",
                   explanation := generate_explanation
                     (item.path ++ [r.rTo])
                     (item.relTypes ++ [r.relationType]) }]
              else inferred),
              InfOk rels target md minC inf := by
            by_cases hlen3 : 3 ≤ (item.path ++ [r.rTo]).length
            · simp only [if_pos hlen3]
              intro inf hmem
              rcases List.mem_append.mp hmem with hold | hnew
              · exact hinf inf hold
              · rcases List.mem_singleton.mp hnew with rfl
                refine ⟨item.path ++ [r.rTo],
                  item.relTypes ++ [r.relationType], hpath',
                  head?_append_of_some hhead, List.getLast?_concat _,
                  nodup_append_singleton hnodup hnotpath, ?_, ?_, ?_, ?_,
                  le_of_not_lt hc, rfl⟩
                · simp only [List.length_append, List.length_singleton]
                  omega
                · simp only [List.length_append, List.length_singleton]
                    at hlen3 ⊢
                  omega
                · simp only [List.length_append, List.length_singleton]
                  omega
                · show ratMul item.conf (get_decay_factor r.relationType) =
                    decayProd (item.relTypes ++ [r.relationType])
                  rw [decayProd_append, hconf]
            · simp only [if_neg hlen3]
              exact hinf
          have hres := ih (r.rTo :: visited)
            (if 3 ≤ (item.path ++ [r.rTo]).length then
              inferred ++
                [{ relation :=
                    { rFrom := target, rTo := r.rTo,
                      relationType := "inferred_" ++
                        ((item.relTypes ++ [r.relationType]).headD
                          "relation"),
                      createdBy := "InferenceEngine", createdAt := now,
                      validFrom := none, validTo := none },
                   confidence :=
                     ratMul item.conf (get_decay_factor r.relationType),
                   ruleName := "TransitiveDependencyRule",
                   explanation := generate_explanation
                     (item.path ++ [r.rTo])
                     (item.relTypes ++ [r.relationType]) }]
              else inferred)
            (if 3 ≤ (item.path ++ [r.rTo]).length then pf + 1 else pf)
            (max mdr ((item.path ++ [r.rTo]).length - 1))
            (adds ++ [⟨r.rTo, item.path ++ [r.rTo],
              item.relTypes ++ [r.relationType],
              ratMul item.conf (get_decay_factor r.relationType)⟩])
            hrs' (hsub target hvt) (fun x hx => hsub x (hvp x hx))
            (by
              intro it hit
              rcases List.mem_append.mp hit with hold | hnew
              · exact ItemInv_mono hsub (hadds it hold)
              · rcases List.mem_singleton.mp hnew with rfl
                exact hit')
            hinf'
          exact ⟨fun x hx => hres.1 x (hsub x hx), hres.2.1, hres.2.2⟩

theorem mem_of_getLast?_some {l : List String} {b : String}
    (h : l.getLast? = some b) : b ∈ l := by
  rcases List.mem_getLast?_eq_getLast (Option.mem_def.mpr h) with ⟨hne, rfl⟩
  exact List.getLast_mem hne

theorem head_ne_last_of_nodup :
    ∀ (p : List String) (a b : String), p.Nodup → p.head? = some a →
      p.getLast? = some b → 2 ≤ p.length → a ≠ b := by
  intro p a b hnd hh hl hlen
  cases p with
  | nil => simp at hh
  | cons x xs =>
      cases xs with
      | nil => simp at hlen
      | cons y ys =>
          have hax : a = x := by simpa using hh.symm
          subst hax
          rw [List.getLast?_cons_cons] at hl
          have hb : b ∈ y :: ys := mem_of_getLast?_some hl
          have hx : a ∉ y :: ys := (List.nodup_cons.mp hnd).1
          intro heq
          exact hx (heq ▸ hb)

theorem bfsLoop_sound (md : Nat) (minC : ℚ) (target : String) (now : Nat)
    (rels : List Relation) :
    ∀ (fuel : Nat) (visited : List String) (queue : List QItem)
      (inferred : List InferredRelation) (nv pf mdr : Nat)
      (out : List InferredRelation) (stats : InferStats),
      bfsLoop md minC target now rels fuel visited queue inferred nv pf mdr
        = some (out, stats) →
      target ∈ visited →
      (∀ it ∈ queue, ItemInv rels target md visited it) →
      (∀ inf ∈ inferred, InfOk rels target md minC inf) →
      ∀ inf ∈ out, InfOk rels target md minC inf := by
  intro fuel
  induction fuel with
  | zero =>
      intro visited queue inferred nv pf mdr out stats hrun _ _ hinf
      cases queue with
      | nil =>
          simp only [bfsLoop, Option.some_inj, Prod.mk.injEq] at hrun
          obtain ⟨h1, _⟩ := hrun
          subst h1
          exact hinf
      | cons item rest =>
          simp only [bfsLoop] at hrun
          exact Option.noConfusion hrun
  | succ fuel ih =>
      intro visited queue inferred nv pf mdr out stats hrun hvt hq hinf
      cases queue with
      | nil =>
          simp only [bfsLoop, Option.some_inj, Prod.mk.injEq] at hrun
          obtain ⟨h1, _⟩ := hrun
          subst h1
          exact hinf
      | cons item rest =>
          simp only [bfsLoop] at hrun
          by_cases hd : md ≤ item.path.length - 1
          · rw [if_pos hd] at hrun
            exact ih _ _ _ _ _ _ _ _ hrun hvt
              (fun it hit => hq it (List.mem_cons_of_mem _ hit)) hinf
          · rw [if_neg hd] at hrun
            obtain ⟨i1, i2, i3, i4, i5, i6, i7⟩ :=
              hq item (List.mem_cons_self item rest)
            have hne : item.path ≠ [] := by
              intro h; rw [h] at i1; simp at i1
            have hlenpos : 1 ≤ item.path.length :=
              List.length_pos.mpr hne
            have hdepth : item.path.length ≤ md := by omega
            have houtgoing : ∀ r ∈ rels.filter
                (fun r => r.rFrom == item.node),
                r ∈ rels ∧ r.rFrom = item.node := by
              intro r hr
              obtain ⟨hr1, hr2⟩ := List.mem_filter.mp hr
              exact ⟨hr1, by simpa using hr2⟩
            have happly := processEdges_inv minC target now rels md item
              i1 i2 i3 i6 i5 hdepth
              (rels.filter (fun r => r.rFrom == item.node)) visited inferred
              pf mdr [] houtgoing hvt i4 (by simp) hinf
            exact ih _ _ _ _ _ _ _ _ hrun (happly.1 target hvt)
              (by
                intro it hit
                rcases List.mem_append.mp hit with hold | hnew
                · exact ItemInv_mono happly.1
                    (hq it (List.mem_cons_of_mem _ hold))
                · exact happly.2.1 it hnew)
              happly.2.2

theorem filter_not_mem_cons (a : String) (visited : List String) :
    ∀ (u : List String), u.Nodup → a ∈ u → a ∉ visited →
      (u.filter (fun x => decide (x ∉ (a :: visited)))).length + 1 =
        (u.filter (fun x => decide (x ∉ visited))).length := by
  intro u
  induction u with
  | nil => intro _ ha; cases ha
  | cons b u' ih =>
      intro hnd ha hav
      obtain ⟨hb, hnd'⟩ := List.nodup_cons.mp hnd
      rcases List.mem_cons.mp ha with rfl | ha'
      · have hfeq : u'.filter (fun x => decide (x ∉ (a :: visited))) =
            u'.filter (fun x => decide (x ∉ visited)) := by
          apply List.filter_congr
          intro x hx
          have hxa : x ≠ a := fun h => hb (h ▸ hx)
          simp [List.mem_cons, hxa]
        have h1 : (decide (a ∉ (a :: visited))) = false := by simp
        have h2 : (decide (a ∉ visited)) = true := by simpa using hav
        simp only [List.filter_cons, h1, h2, if_pos, if_neg,
          Bool.false_eq_true, if_false, if_true, List.length_cons, hfeq]
      · have hba : b ≠ a := fun h => hb (h ▸ ha')
        have hmem : (b ∉ (a :: visited)) ↔ (b ∉ visited) := by
          simp [List.mem_cons, hba]
        by_cases hbv : b ∈ visited
        · have h1 : (decide (b ∉ (a :: visited))) = false := by
            simp [List.mem_cons, hbv]
          have h2 : (decide (b ∉ visited)) = false := by simp [hbv]
          simp only [List.filter_cons, h1, h2, Bool.false_eq_true, if_false]
          exact ih hnd' ha' hav
        · have h1 : (decide (b ∉ (a :: visited))) = true := by
            simp [List.mem_cons, hba, hbv]
          have h2 : (decide (b ∉ visited)) = true := by simp [hbv]
          simp only [List.filter_cons, h1, h2, if_true, List.length_cons]
          have := ih hnd' ha' hav
          omega

theorem processEdges_count (minC : ℚ) (target : String) (now : Nat)
    (item : QItem) (u : List String) (hu : u.Nodup) :
    ∀ (rs : List Relation) (visited : List String)
      (inferred : List InferredRelation) (pf mdr : Nat) (adds : List QItem),
      (∀ r ∈ rs, r.rTo ∈ u) →
      (u.filter (fun x => decide (x ∉ (processEdges minC target now item rs
          visited inferred pf mdr adds).1))).length +
        (processEdges minC target now item rs visited inferred pf mdr
          adds).2.2.2.2.length
      = (u.filter (fun x => decide (x ∉ visited))).length + adds.length := by
  intro rs
  induction rs with
  | nil => intro visited inferred pf mdr adds _; rfl
  | cons r rs' ih =>
      intro visited inferred pf mdr adds hrs
      have hrs' : ∀ x ∈ rs', x.rTo ∈ u :=
        fun x hx => hrs x (List.mem_cons_of_mem r hx)
      simp only [processEdges]
      by_cases hv : r.rTo ∈ visited
      · simp only [if_pos hv]
        exact ih visited inferred pf mdr adds hrs'
      · simp only [if_neg hv]
        by_cases hc : ratMul item.conf (get_decay_factor r.relationType) < minC
        · simp only [if_pos hc]
          exact ih visited inferred pf mdr adds hrs'
        · simp only [if_neg hc]
          have hstep := ih (r.rTo :: visited)
            (if 3 ≤ (item.path ++ [r.rTo]).length then
              inferred ++
                [{ relation :=
                    { rFrom := target, rTo := r.rTo,
                      relationType := "inferred_" ++
                        ((item.relTypes ++ [r.relationType]).headD
                          "relation"),
                      createdBy := "InferenceEngine", createdAt := now,
                      validFrom := none, validTo := none },
                   confidence :=
                     ratMul item.conf (get_decay_factor r.relationType),
                   ruleName := "TransitiveDependencyRule",
                   explanation := generate_explanation
                     (item.path ++ [r.rTo])
                     (item.relTypes ++ [r.relationType]) }]
              else inferred)
            (if 3 ≤ (item.path ++ [r.rTo]).length then pf + 1 else pf)
            (max mdr ((item.path ++ [r.rTo]).length - 1))
            (adds ++ [⟨r.rTo, item.path ++ [r.rTo],
              item.relTypes ++ [r.relationType],
              ratMul item.conf (get_decay_factor r.relationType)⟩])
            hrs'
          have hcount := filter_not_mem_cons r.rTo visited u hu
            (hrs r (List.mem_cons_self r rs')) hv
          rw [hstep]
          simp only [List.length_append, List.length_singleton]
          omega

theorem bfsLoop_total (md : Nat) (minC : ℚ) (target : String) (now : Nat)
    (rels : List Relation) :
    ∀ (fuel : Nat) (visited : List String) (queue : List QItem)
      (inferred : List InferredRelation) (nv pf mdr : Nat),
      queue.length + (((rels.map Relation.rTo).dedup).filter
        (fun x => decide (x ∉ visited))).length ≤ fuel →
      (bfsLoop md minC target now rels fuel visited queue inferred nv pf
        mdr).isSome := by
  intro fuel
  induction fuel with
  | zero =>
      intro visited queue inferred nv pf mdr hle
      cases queue with
      | nil => simp [bfsLoop]
      | cons item rest =>
          simp only [List.length_cons] at hle
          omega
  | succ fuel ih =>
      intro visited queue inferred nv pf mdr hle
      cases queue with
      | nil => simp [bfsLoop]
      | cons item rest =>
          simp only [bfsLoop]
          by_cases hd : md ≤ item.path.length - 1
          · rw [if_pos hd]
            apply ih
            simp only [List.length_cons] at hle
            omega
          · rw [if_neg hd]
            have hout : ∀ r ∈ rels.filter (fun r => r.rFrom == item.node),
                r.rTo ∈ (rels.map Relation.rTo).dedup := by
              intro r hr
              exact List.mem_dedup.mpr
                (List.mem_map.mpr ⟨r, (List.mem_filter.mp hr).1, rfl⟩)
            have hcount := processEdges_count minC target now item
              ((rels.map Relation.rTo).dedup) (List.nodup_dedup _)
              (rels.filter (fun r => r.rFrom == item.node)) visited inferred
              pf mdr [] hout
            apply ih
            simp only [List.length_append]
            simp only [List.length_cons] at hle
            simp only [List.length_nil] at hcount
            omega

theorem infer_mem_infOk (md : Nat) (g : KnowledgeGraph)
    (target : String) (minC : ℚ) (now : Nat) :
    ∀ inf ∈ (infer md g target minC now).1,
      InfOk g.relations target md minC inf := by
  intro inf hinf
  unfold infer transitiveApply at hinf
  by_cases hex : (g.entities.any (fun e => e.name == target)) = true
  · rw [if_pos hex] at hinf
    cases hrun : transitiveRun md g target minC now with
    | none => rw [hrun] at hinf; simp at hinf
    | some res =>
        rw [hrun] at hinf
        obtain ⟨out, stats⟩ := res
        unfold transitiveRun at hrun
        have hiteminit : ItemInv g.relations target md [target]
            ⟨target, [target], [], 1⟩ := by
          refine ⟨rfl, rfl, List.nodup_singleton _, ?_, ?_, ?_, ?_⟩
          · intro x hx; simpa using hx
          · rw [PathOk]; trivial
          · rfl
          · simp
        have := bfsLoop_sound md minC target now g.relations
          (bfsFuel g.relations) [target] [⟨target, [target], [], 1⟩] [] 0 0
          0 out stats hrun (List.mem_singleton.mpr rfl)
          (by
            intro it hit
            rcases List.mem_singleton.mp hit with rfl
            exact hiteminit)
          (by simp)
        exact this inf hinf
  · rw [if_neg hex] at hinf
    simp at hinf

/-- C6. Inference soundness: every inferred relation returned by the
transitive-dependency rule (the only rule of the default engine's
`infer`) is backed by an actual simple path in the graph of between 2
and `maxDepth` edges starting at the target and ending at the
relation's endpoint; its confidence (modelled in exact rational
arithmetic) is the product of the per-edge decay factors along that
path; and that confidence is at least the threshold. -/
theorem inference_soundness (md : Nat) (g : KnowledgeGraph)
    (target : String) (minC : ℚ) (now : Nat) :
    ∀ inf ∈ (infer md g target minC now).1,
      ∃ p ts, PathOk g.relations p ts ∧ p.head? = some target ∧
        p.getLast? = some inf.relation.rTo ∧ p.Nodup ∧
        ts.length + 1 = p.length ∧ 2 ≤ ts.length ∧ ts.length ≤ md ∧
        inf.confidence = decayProd ts ∧ minC ≤ inf.confidence ∧
        inf.relation.rFrom = target := by
  intro inf hinf
  exact infer_mem_infOk md g target minC now inf hinf

/-- C7. Inference cycle safety: the BFS of the transitive-dependency
rule drains its queue within the fuel `apply` provides on every finite
graph (including cyclic ones), and no inferred relation returned by
`infer` has `from` equal to `to`. -/
theorem inference_cycle_safety (md : Nat) (g : KnowledgeGraph)
    (target : String) (minC : ℚ) (now : Nat) :
    (transitiveRun md g target minC now).isSome = true ∧
    ∀ inf ∈ (infer md g target minC now).1,
      inf.relation.rFrom ≠ inf.relation.rTo := by
  constructor
  · unfold transitiveRun
    apply bfsLoop_total
    have := List.length_filter_le
      (fun x => decide (x ∉ ([target] : List String)))
      ((g.relations.map Relation.rTo).dedup)
    simp only [bfsFuel, List.length_cons, List.length_nil]
    omega
  · intro inf hinf
    obtain ⟨p, ts, hpath, hh, hl, hnd, hlen, h2, hmd, hconf, hle, hfrom⟩ :=
      infer_mem_infOk md g target minC now inf hinf
    rw [hfrom]
    exact head_ne_last_of_nodup p target inf.relation.rTo hnd hh hl
      (by omega)

/-- Witness for C6 on the chain A → B → C (both edges `depends_on`):
the inferred relation A → C with confidence 0.95 · 0.95 = 361/400 is
backed by a simple two-edge path. -/
theorem inference_soundness_witness :
    ∃ p ts,
      PathOk [⟨"A", "B", "depends_on", "", 0, none, none⟩,
              ⟨"B", "C", "depends_on", "", 0, none, none⟩] p ts ∧
      p.head? = some "A" ∧ p.getLast? = some "C" ∧ p.Nodup ∧
      ts.length + 1 = p.length ∧ 2 ≤ ts.length ∧ ts.length ≤ 3 ∧
      Rat.divInt 361 400 = decayProd ts ∧ mkRat 1 2 ≤ Rat.divInt 361 400 ∧
      "A" = "A" :=
  inference_soundness 3
    ⟨[⟨"A", "M", [], "", "", 0, 0⟩, ⟨"B", "M", [], "", "", 0, 0⟩,
      ⟨"C", "M", [], "", "", 0, 0⟩],
     [⟨"A", "B", "depends_on", "", 0, none, none⟩,
      ⟨"B", "C", "depends_on", "", 0, none, none⟩]⟩ "A" (mkRat 1 2) 0
    ⟨⟨"A", "C", "inferred_depends_on", "InferenceEngine", 0, none, none⟩,
     Rat.divInt 361 400, "TransitiveDependencyRule",
     "Inferred via path: A -[depends_on]-> B -[depends_on]-> C"⟩
    (by decide)

/-- Witness for C7 on the cyclic graph A → B → C → A: the BFS result is
present (termination despite the cycle) and no inferred relation is a
self-relation. -/
theorem inference_cycle_safety_witness :
    ((transitiveRun 10
      ⟨[⟨"A", "M", [], "", "", 0, 0⟩, ⟨"B", "M", [], "", "", 0, 0⟩,
        ⟨"C", "M", [], "", "", 0, 0⟩],
       [⟨"A", "B", "depends_on", "", 0, none, none⟩,
        ⟨"B", "C", "depends_on", "", 0, none, none⟩,
        ⟨"C", "A", "depends_on", "", 0, none, none⟩]⟩ "A" (mkRat 1 10)
      0).isSome = true) ∧
    (∀ inf ∈ (infer 10
      ⟨[⟨"A", "M", [], "", "", 0, 0⟩, ⟨"B", "M", [], "", "", 0, 0⟩,
        ⟨"C", "M", [], "", "", 0, 0⟩],
       [⟨"A", "B", "depends_on", "", 0, none, none⟩,
        ⟨"B", "C", "depends_on", "", 0, none, none⟩,
        ⟨"C", "A", "depends_on", "", 0, none, none⟩]⟩ "A" (mkRat 1 10) 0).1,
      inf.relation.rFrom ≠ inf.relation.rTo) :=
  inference_cycle_safety 10
    ⟨[⟨"A", "M", [], "", "", 0, 0⟩, ⟨"B", "M", [], "", "", 0, 0⟩,
      ⟨"C", "M", [], "", "", 0, 0⟩],
     [⟨"A", "B", "depends_on", "", 0, none, none⟩,
      ⟨"B", "C", "depends_on", "", 0, none, none⟩,
      ⟨"C", "A", "depends_on", "", 0, none, none⟩]⟩ "A" (mkRat 1 10) 0

end MemoryGraph
